import Mathlib

set_option maxRecDepth 100000

/-!
# Verification of the incremental codebase-indexing pipeline

A shallow embedding of the TypeScript sources of the `codebase_indexing`
repository: the AST chunker (`src/chunker/ast-chunker.ts`), the Merkle
summary builder and differ (`src/indexer.ts`), the indexing orchestration
(`Indexer.index`), the vector-store id derivation (`sha256ToUuid`), the
retriever (`src/search/retriever.ts`) and the benchmark dataset loader
(`DatasetLoader.load`).  Pure functions become Lean functions; the
orchestration becomes a pure function from its inputs to its result plus
an explicit list of external effects.  SHA-256 (the `node:crypto` calls)
is embedded as an executable pure function over byte lists.
-/

/-! ## SHA-256 (model of `crypto.createHash('sha256').update(s).digest('hex')`)

Bytes are `Nat`s below 256, words are `Nat`s below 2^32 with explicit
`% 2^32` where overflow matters. -/

namespace Sha256

def M32 : Nat := 4294967296

/-- Right rotation of a 32-bit word. -/
def rotr (n x : Nat) : Nat := ((x >>> n) ||| (x <<< (32 - n))) % M32

def bigSigma0 (x : Nat) : Nat := rotr 2 x ^^^ rotr 13 x ^^^ rotr 22 x
def bigSigma1 (x : Nat) : Nat := rotr 6 x ^^^ rotr 11 x ^^^ rotr 25 x
def smallSigma0 (x : Nat) : Nat := rotr 7 x ^^^ rotr 18 x ^^^ (x >>> 3)
def smallSigma1 (x : Nat) : Nat := rotr 17 x ^^^ rotr 19 x ^^^ (x >>> 10)
def ch (x y z : Nat) : Nat := (x &&& y) ^^^ ((x ^^^ 4294967295) &&& z)
def maj (x y z : Nat) : Nat := (x &&& y) ^^^ (x &&& z) ^^^ (y &&& z)

/-- The 64 SHA-256 round constants. -/
def K : List Nat :=
  [1116352408, 1899447441, 3049323471, 3921009573, 961987163,
   1508970993, 2453635748, 2870763221, 3624381080, 310598401,
   607225278, 1426881987, 1925078388, 2162078206, 2614888103,
   3248222580, 3835390401, 4022224774, 264347078, 604807628,
   770255983, 1249150122, 1555081692, 1996064986, 2554220882,
   2821834349, 2952996808, 3210313671, 3336571891, 3584528711,
   113926993, 338241895, 666307205, 773529912, 1294757372,
   1396182291, 1695183700, 1986661051, 2177026350, 2456956037,
   2730485921, 2820302411, 3259730800, 3345764771, 3516065817,
   3600352804, 4094571909, 275423344, 430227734, 506948616,
   659060556, 883997877, 958139571, 1322822218, 1537002063,
   1747873779, 1955562222, 2024104815, 2227730452, 2361852424,
   2428436474, 2756734187, 3204031479, 3329325298]

/-- SHA-256 padding: append `0x80`, zero bytes up to 56 mod 64, then the
bit length as eight big-endian bytes. -/
def pad (msg : List Nat) : List Nat :=
  let len := msg.length
  let bitLen := len * 8
  let zeros := (120 - ((len + 1) % 64)) % 64
  msg ++ 0x80 :: List.replicate zeros 0 ++
    [(bitLen >>> 56) % 256, (bitLen >>> 48) % 256, (bitLen >>> 40) % 256,
     (bitLen >>> 32) % 256, (bitLen >>> 24) % 256, (bitLen >>> 16) % 256,
     (bitLen >>> 8) % 256, bitLen % 256]

/-- Group four big-endian bytes into one 32-bit word. -/
def toWords : List Nat → List Nat
  | b0 :: b1 :: b2 :: b3 :: rest =>
      ((b0 <<< 24) ||| (b1 <<< 16) ||| (b2 <<< 8) ||| b3) :: toWords rest
  | _ => []

/-- Split a list into 64-byte blocks; the fuel bounds the number of blocks
(structural recursion so the kernel can evaluate it). -/
def chunk64F : Nat → List Nat → List (List Nat)
  | 0, _ => []
  | _, [] => []
  | fuel + 1, l@(_ :: _) => l.take 64 :: chunk64F fuel (l.drop 64)

/-- Split the padded message into 64-byte blocks. -/
def chunk64 (l : List Nat) : List (List Nat) := chunk64F l.length l

/-- Extend the 16 message words to the 64-entry message schedule. -/
def extendW (ws : List Nat) : Array Nat :=
  (List.range 48).foldl
    (fun w i =>
      let t := i + 16
      w.push ((smallSigma1 (w.getD (t - 2) 0) + w.getD (t - 7) 0 +
               smallSigma0 (w.getD (t - 15) 0) + w.getD (t - 16) 0) % M32))
    ws.toArray

/-- The eight working registers of the compression function. -/
structure Regs where
  a : Nat
  b : Nat
  c : Nat
  d : Nat
  e : Nat
  f : Nat
  g : Nat
  h : Nat
deriving Repr, DecidableEq

def initRegs : Regs :=
  ⟨1779033703, 3144134277, 1013904242, 2773480762,
   1359893119, 2600822924, 528734635, 1541459225⟩

/-- One compression round. -/
def round (r : Regs) (k w : Nat) : Regs :=
  let t1 := (r.h + bigSigma1 r.e + ch r.e r.f r.g + k + w) % M32
  let t2 := (bigSigma0 r.a + maj r.a r.b r.c) % M32
  ⟨(t1 + t2) % M32, r.a, r.b, r.c, (r.d + t1) % M32, r.e, r.f, r.g⟩

/-- Compress one 64-byte block into the running state. -/
def compress (st : Regs) (block : List Nat) : Regs :=
  let w := extendW (toWords block)
  let r := (K.zip w.toList).foldl (fun r kw => round r kw.1 kw.2) st
  ⟨(st.a + r.a) % M32, (st.b + r.b) % M32, (st.c + r.c) % M32,
   (st.d + r.d) % M32, (st.e + r.e) % M32, (st.f + r.f) % M32,
   (st.g + r.g) % M32, (st.h + r.h) % M32⟩

/-- A 32-bit word as four big-endian bytes. -/
def wordBytes (x : Nat) : List Nat :=
  [(x >>> 24) % 256, (x >>> 16) % 256, (x >>> 8) % 256, x % 256]

/-- SHA-256 of a byte list: the 32 digest bytes. -/
def sha256 (msg : List Nat) : List Nat :=
  let r := (chunk64 (pad msg)).foldl compress initRegs
  wordBytes r.a ++ wordBytes r.b ++ wordBytes r.c ++ wordBytes r.d ++
  wordBytes r.e ++ wordBytes r.f ++ wordBytes r.g ++ wordBytes r.h

/-- Lowercase hex digit for a value below 16. -/
def hexDigit (n : Nat) : Char :=
  if n < 10 then Char.ofNat (48 + n) else Char.ofNat (87 + n)

def byteHex (b : Nat) : List Char := [hexDigit (b / 16), hexDigit (b % 16)]

/-- Lowercase hex string of a byte list. -/
def bytesToHex (bs : List Nat) : String := String.mk (bs.flatMap byteHex)

/-- UTF-8 encoding of one character (how Node's `Buffer.from(s, 'utf-8')`
encodes each code point). -/
def utf8EncodeChar (c : Char) : List Nat :=
  let n := c.toNat
  if n < 0x80 then [n]
  else if n < 0x800 then
    [0xc0 ||| (n >>> 6), 0x80 ||| (n &&& 0x3f)]
  else if n < 0x10000 then
    [0xe0 ||| (n >>> 12), 0x80 ||| ((n >>> 6) &&& 0x3f), 0x80 ||| (n &&& 0x3f)]
  else
    [0xf0 ||| (n >>> 18), 0x80 ||| ((n >>> 12) &&& 0x3f),
     0x80 ||| ((n >>> 6) &&& 0x3f), 0x80 ||| (n &&& 0x3f)]

/-- UTF-8 bytes of a string. -/
def utf8Bytes (s : String) : List Nat := s.toList.flatMap utf8EncodeChar

end Sha256

/-- `crypto.createHash('sha256').update(s).digest('hex')`: lowercase-hex
SHA-256 of the UTF-8 bytes of `s`. -/
def sha256hex (s : String) : String :=
  Sha256.bytesToHex (Sha256.sha256 (Sha256.utf8Bytes s))

/-! ## AST chunker (`src/chunker/ast-chunker.ts`)

The tree-sitter parse is external: `chunkFile` below takes the list of raw
segments that `extractTopLevelSegments` extracts from the parse tree as an
input.  Everything downstream of extraction (oversize expansion, small-segment
merging, chunk materialization) is embedded from the source.  JavaScript's
optional `functionBlocks?` field is modelled as a list (`undefined` behaves
exactly like `[]` in every use site).  Line numbers are 0-based inside
segments, exactly as in the source. -/

/-- Split a character list at every occurrence of `sep` (JavaScript's
`String.prototype.split` with a one-character separator). -/
def splitChar (sep : Char) : List Char → List (List Char)
  | [] => [[]]
  | x :: xs =>
    match splitChar sep xs with
    | [] => [[]]
    | g :: gs => if x = sep then [] :: g :: gs else (x :: g) :: gs

/-- JavaScript `s.split(sep)` for a one-character separator. -/
def jsSplit (sep : Char) (s : String) : List String :=
  (splitChar sep s.toList).map String.mk

/-- `interface Segment` of `ast-chunker.ts` (nested, so an inductive). -/
inductive Segment : Type where
  | mk (startLine : Nat) (endLine : Nat) (nodeType : String)
       (symbolName : Option String) (children : List Segment)
       (functionBlocks : List Segment)

namespace Segment

def startLine : Segment → Nat | ⟨s, _, _, _, _, _⟩ => s
def endLine : Segment → Nat | ⟨_, e, _, _, _, _⟩ => e
def nodeType : Segment → String | ⟨_, _, t, _, _, _⟩ => t
def symbolName : Segment → Option String | ⟨_, _, _, n, _, _⟩ => n
def children : Segment → List Segment | ⟨_, _, _, _, c, _⟩ => c
def functionBlocks : Segment → List Segment | ⟨_, _, _, _, _, f⟩ => f

/-- `result[result.length - 1].endLine = e` -/
def withEndLine : Segment → Nat → Segment
  | ⟨s, _, t, n, c, f⟩, e => ⟨s, e, t, n, c, f⟩

end Segment

/-- A JavaScript string-or-undefined is truthy iff it is a non-empty string. -/
def truthy : Option String → Bool
  | none => false
  | some s => !(s == "")

/-- String interpolation of a string-or-undefined (`undefined` prints as
`"undefined"` inside a template literal). -/
def jsStr : Option String → String
  | none => "undefined"
  | some s => s

/-- `estimateTokens`: ceil(charCount / 4) where charCount sums
`lines[i].length + 1` for `i` from `startLine` to `min(endLine, lines.length - 1)`. -/
def estimateTokens (lines : List String) (s e : Nat) : Nat :=
  if lines.isEmpty then 0
  else
    let stop := min e (lines.length - 1)
    let charCount :=
      ((List.range' s (stop + 1 - s)).map (fun i => (lines.getD i "").length + 1)).sum
    (charCount + 3) / 4

/-- `child.symbolName ? `${seg.symbolName}.${child.symbolName}` : seg.symbolName` -/
def childSymbol (segSym childSym : Option String) : Option String :=
  if truthy childSym then some (jsStr segSym ++ "." ++ jsStr childSym) else segSym

/-- Update the `endLine` of the last pushed segment
(`result[result.length - 1].endLine = seg.endLine`). -/
def setLastEnd : List Segment → Nat → List Segment
  | [], _ => []
  | [s], e => [s.withEndLine e]
  | s :: t :: rest, e => s :: setLastEnd (t :: rest) e

/-- One iteration of the `for (const child of seg.children)` loop of
`splitContainer`; the state is the segments pushed so far plus `lastEnd`. -/
def splitContainerStep (lines : List String) (minTok : Nat) (seg : Segment)
    (st : List Segment × Nat) (child : Segment) : List Segment × Nat :=
  let result := st.1
  let lastEnd := st.2
  let cSym := childSymbol seg.symbolName child.symbolName
  let result :=
    if lastEnd < child.startLine then
      let gapTokens := estimateTokens lines lastEnd (child.startLine - 1)
      if minTok ≤ gapTokens then
        result ++
          [⟨lastEnd, child.startLine - 1, seg.nodeType ++ "_header", seg.symbolName, [], []⟩,
           ⟨child.startLine, child.endLine, child.nodeType, cSym, [], child.functionBlocks⟩]
      else
        result ++ [⟨lastEnd, child.endLine, child.nodeType, cSym, [], child.functionBlocks⟩]
    else
      result ++
        [⟨min lastEnd child.startLine, child.endLine, child.nodeType, cSym, [],
          child.functionBlocks⟩]
  (result, child.endLine + 1)

/-- `ASTChunker.splitContainer`: split a container into header + per-child
segments + footer; the trailing content either becomes a footer or is merged
into the last pushed segment. -/
def splitContainer (lines : List String) (minTok : Nat) (seg : Segment) :
    List Segment :=
  let st := seg.children.foldl (splitContainerStep lines minTok seg) ([], seg.startLine)
  let result := st.1
  let lastEnd := st.2
  if lastEnd ≤ seg.endLine then
    let trailingTokens := estimateTokens lines lastEnd seg.endLine
    if minTok ≤ trailingTokens then
      result ++ [⟨lastEnd, seg.endLine, seg.nodeType ++ "_footer", seg.symbolName, [], []⟩]
    else if 0 < result.length then setLastEnd result seg.endLine
    else result
  else result

/-- Symbol label of a `_part` chunk produced by the line-count fallback. -/
def partSymbol (sym : Option String) (partIdx : Nat) : Option String :=
  if truthy sym then some (jsStr sym ++ " (part " ++ toString partIdx ++ ")")
  else some ("(part " ++ toString partIdx ++ ")")

/-- `ASTChunker.splitByLineCount`: accumulate line character counts until the
`maxChunkTokens * 4` budget would be exceeded, then start a new part. -/
def splitByLineCount (lines : List String) (maxTok : Nat) (seg : Segment) :
    List Segment :=
  let maxChars := maxTok * 4
  let st :=
    (List.range' seg.startLine (seg.endLine + 1 - seg.startLine)).foldl
      (fun (st : List Segment × Nat × Nat × Nat) i =>
        let result := st.1
        let partIdx := st.2.1
        let chunkStart := st.2.2.1
        let chunkChars := st.2.2.2
        let lineChars := ((lines.getD i "").length) + 1
        if maxChars < chunkChars + lineChars ∧ chunkStart < i then
          (result ++
             [⟨chunkStart, i - 1, seg.nodeType ++ "_part",
               partSymbol seg.symbolName (partIdx + 1), [], []⟩],
           partIdx + 1, i, lineChars)
        else
          (result, partIdx, chunkStart, chunkChars + lineChars))
      ([], 0, seg.startLine, 0)
  let result := st.1
  let partIdx := st.2.1
  let chunkStart := st.2.2.1
  if chunkStart ≤ seg.endLine then
    result ++
      [⟨chunkStart, seg.endLine, seg.nodeType ++ "_part",
        partSymbol seg.symbolName (partIdx + 1), [], []⟩]
  else result

/-- `ASTChunker.splitByBlocks`: optional signature header, then greedy
grouping of consecutive logical blocks within the token ceiling; the last
group is extended to the segment's end line. -/
def splitByBlocks (lines : List String) (maxTok minTok : Nat) (seg : Segment)
    (blocks : List Segment) : List Segment :=
  match blocks with
  | [] => [⟨seg.startLine, seg.endLine, seg.nodeType, seg.symbolName, [], []⟩]
  | b0 :: rest =>
    let firstBlockStart := b0.startLine
    let headerEnd := firstBlockStart - 1
    let init :=
      if seg.startLine < firstBlockStart then
        let headerTokens := estimateTokens lines seg.startLine headerEnd
        if minTok ≤ headerTokens then
          ([(⟨seg.startLine, headerEnd, seg.nodeType ++ "_header", seg.symbolName, [], []⟩ :
             Segment)], true)
        else (([] : List Segment), false)
      else (([] : List Segment), false)
    let groupStart := if init.2 then b0.startLine else seg.startLine
    let st :=
      rest.foldl
        (fun (st : List Segment × Nat × Nat) b =>
          let result := st.1
          let groupStart := st.2.1
          let groupEnd := st.2.2
          let extendedTokens := estimateTokens lines groupStart b.endLine
          if maxTok < extendedTokens then
            (result ++
               [⟨groupStart, groupEnd, seg.nodeType ++ "_block", seg.symbolName, [], []⟩],
             groupEnd + 1, b.endLine)
          else (result, groupStart, b.endLine))
        (init.1, groupStart, b0.endLine)
    st.1 ++ [⟨st.2.1, seg.endLine, seg.nodeType ++ "_block", seg.symbolName, [], []⟩]

/-- `ASTChunker.expandSegment` with explicit recursion fuel (the source
recursion terminates because `splitContainer` emits segments with empty
`children`; `expandSegmentF_fuel_independent` below shows fuel 2 reproduces
the unbounded recursion). -/
def expandSegmentF (lines : List String) (maxTok minTok : Nat) :
    Nat → Segment → List Segment
  | 0, _ => []
  | fuel + 1, seg =>
    if 0 < seg.children.length ∧ maxTok < estimateTokens lines seg.startLine seg.endLine then
      (splitContainer lines minTok seg).flatMap (expandSegmentF lines maxTok minTok fuel)
    else if 1 < seg.functionBlocks.length ∧
        maxTok < estimateTokens lines seg.startLine seg.endLine then
      splitByBlocks lines maxTok minTok seg seg.functionBlocks
    else if maxTok < estimateTokens lines seg.startLine seg.endLine then
      splitByLineCount lines maxTok seg
    else
      [⟨seg.startLine, seg.endLine, seg.nodeType, seg.symbolName, [], []⟩]

/-- `ASTChunker.expandSegment` (recursion depth 2 suffices, see
`expandSegmentF_fuel_independent`). -/
def expandSegment (lines : List String) (maxTok minTok : Nat) (seg : Segment) :
    List Segment :=
  expandSegmentF lines maxTok minTok 2 seg

/-- `ASTChunker.expandOversizedSegments`. -/
def expandOversizedSegments (lines : List String) (maxTok minTok : Nat)
    (segments : List Segment) : List Segment :=
  segments.flatMap (expandSegment lines maxTok minTok)

/-- The loop of `ASTChunker.mergeSmallSegments`: `current` and its cached
token count travel with the recursion; merging extends `current` and possibly
adopts the next segment's node type and symbol. -/
def mergeLoop (lines : List String) (minTok : Nat) :
    List Segment → Segment → Nat → List Segment → List Segment
  | [], current, _, result => result ++ [current]
  | next :: rest, current, currentTokens, result =>
    let nextTokens := estimateTokens lines next.startLine next.endLine
    if currentTokens < minTok ∨ nextTokens < minTok then
      let current' : Segment :=
        if currentTokens < nextTokens then
          ⟨current.startLine, next.endLine, next.nodeType, next.symbolName,
           current.children, current.functionBlocks⟩
        else current.withEndLine next.endLine
      mergeLoop lines minTok rest current'
        (estimateTokens lines current'.startLine current'.endLine) result
    else
      mergeLoop lines minTok rest next nextTokens (result ++ [current])

/-- `ASTChunker.mergeSmallSegments`. -/
def mergeSmallSegments (lines : List String) (minTok : Nat) :
    List Segment → List Segment
  | [] => []
  | s0 :: rest =>
    mergeLoop lines minTok rest s0 (estimateTokens lines s0.startLine s0.endLine) []

/-- `interface CodeChunk` of `src/types.ts`. -/
structure CodeChunk where
  chunkId : String
  filePath : String
  startLine : Nat
  endLine : Nat
  content : String
  contentHash : String
  nodeType : String
  symbolName : Option String
deriving Repr, DecidableEq

/-- `ASTChunker.chunkFile`, downstream of the external tree-sitter parse:
`rawSegments` is the output of `extractTopLevelSegments` on the parse tree.
`lines.slice(seg.startLine, seg.endLine + 1).join('\n')` becomes
`drop`/`take`/`intercalate`. -/
def chunkFile (maxTok minTok : Nat) (filePath content : String)
    (rawSegments : List Segment) : List CodeChunk :=
  let lines := jsSplit '\n' content
  let expandedSegments := expandOversizedSegments lines maxTok minTok rawSegments
  let mergedSegments := mergeSmallSegments lines minTok expandedSegments
  mergedSegments.map fun seg =>
    let chunkContent :=
      String.intercalate "\n"
        ((lines.drop seg.startLine).take (seg.endLine + 1 - seg.startLine))
    let contentHash := sha256hex chunkContent
    { chunkId := contentHash
      filePath := filePath
      startLine := seg.startLine + 1
      endLine := seg.endLine + 1
      content := chunkContent
      contentHash := contentHash
      nodeType := seg.nodeType
      symbolName := seg.symbolName }

theorem Segment.children_mk (s e : Nat) (t : String) (n : Option String)
    (c f : List Segment) : (Segment.mk s e t n c f).children = c := rfl

theorem Segment.children_withEndLine (s : Segment) (e : Nat) :
    (s.withEndLine e).children = s.children := by
  cases s; rfl

theorem setLastEnd_children (l : List Segment) (e : Nat)
    (h : ∀ s ∈ l, s.children = []) : ∀ s ∈ setLastEnd l e, s.children = [] := by
  induction l with
  | nil => simp [setLastEnd]
  | cons a t ih =>
    cases t with
    | nil =>
      intro s hs
      simp only [setLastEnd, List.mem_singleton] at hs
      subst hs
      rw [Segment.children_withEndLine]
      exact h a (by simp)
    | cons b t' =>
      intro s hs
      simp only [setLastEnd, List.mem_cons] at hs
      rcases hs with rfl | hs
      · exact h s (by simp)
      · exact ih (fun x hx => h x (List.mem_cons_of_mem _ hx)) s hs

theorem splitContainer_foldl_children (lines : List String) (minTok : Nat)
    (seg : Segment) (cs : List Segment) (acc : List Segment × Nat)
    (h : ∀ s ∈ acc.1, s.children = []) :
    ∀ s ∈ (cs.foldl (splitContainerStep lines minTok seg) acc).1, s.children = [] := by
  induction cs generalizing acc with
  | nil => exact h
  | cons c t ih =>
    refine ih _ ?_
    intro s hs
    simp only [splitContainerStep] at hs
    split at hs
    · split at hs
      · rcases List.mem_append.mp hs with hs | hs
        · exact h s hs
        · simp only [List.mem_cons, List.not_mem_nil, or_false] at hs
          rcases hs with rfl | rfl <;> rfl
      · rcases List.mem_append.mp hs with hs | hs
        · exact h s hs
        · simp only [List.mem_singleton] at hs
          subst hs; rfl
    · rcases List.mem_append.mp hs with hs | hs
      · exact h s hs
      · simp only [List.mem_singleton] at hs
        subst hs; rfl

/-- Every segment emitted by `splitContainer` has empty `children`
(the source pushes `children: []` everywhere and the trailing merge only
changes an `endLine`). -/
theorem splitContainer_children (lines : List String) (minTok : Nat)
    (seg : Segment) : ∀ s ∈ splitContainer lines minTok seg, s.children = [] := by
  intro s hs
  simp only [splitContainer] at hs
  have base := splitContainer_foldl_children lines minTok seg seg.children ([], seg.startLine)
    (by simp)
  split at hs
  · split at hs
    · rcases List.mem_append.mp hs with hs | hs
      · exact base s hs
      · simp only [List.mem_singleton] at hs; subst hs; rfl
    · split at hs
      · exact setLastEnd_children _ _ base s hs
      · exact base s hs
  · exact base s hs

theorem expandSegmentF_no_children (lines : List String) (maxTok minTok : Nat)
    (seg : Segment) (h : seg.children = []) (n : Nat) :
    expandSegmentF lines maxTok minTok (n + 1) seg =
      expandSegmentF lines maxTok minTok 1 seg := by
  simp only [expandSegmentF, h, List.length_nil, Nat.lt_irrefl, false_and, if_false]

/-- Sanity: the recursion fuel of `expandSegmentF` is irrelevant from 2 on,
because `splitContainer` only emits segments with empty `children`; so
`expandSegment` coincides with the source's unbounded recursion. -/
theorem expandSegmentF_fuel_independent (lines : List String) (maxTok minTok : Nat)
    (seg : Segment) (n : Nat) :
    expandSegmentF lines maxTok minTok (n + 2) seg =
      expandSegmentF lines maxTok minTok 2 seg := by
  show expandSegmentF lines maxTok minTok ((n + 1) + 1) seg =
    expandSegmentF lines maxTok minTok (1 + 1) seg
  simp only [expandSegmentF]
  split
  · refine List.flatMap_congr ?_
    intro s hs
    have hc := splitContainer_children lines minTok seg s hs
    calc expandSegmentF lines maxTok minTok (n + 1) s
        = expandSegmentF lines maxTok minTok 1 s :=
          expandSegmentF_no_children lines maxTok minTok s hc n
      _ = expandSegmentF lines maxTok minTok (0 + 1) s := rfl
  · rfl

section SegmentAccessors

theorem Segment.startLine_mk (s e : Nat) (t : String) (n : Option String)
    (c f : List Segment) : (Segment.mk s e t n c f).startLine = s := rfl

theorem Segment.endLine_mk (s e : Nat) (t : String) (n : Option String)
    (c f : List Segment) : (Segment.mk s e t n c f).endLine = e := rfl

theorem Segment.nodeType_mk (s e : Nat) (t : String) (n : Option String)
    (c f : List Segment) : (Segment.mk s e t n c f).nodeType = t := rfl

theorem Segment.symbolName_mk (s e : Nat) (t : String) (n : Option String)
    (c f : List Segment) : (Segment.mk s e t n c f).symbolName = n := rfl

theorem Segment.startLine_withEndLine (s : Segment) (e : Nat) :
    (s.withEndLine e).startLine = s.startLine := by cases s; rfl

theorem Segment.endLine_withEndLine (s : Segment) (e : Nat) :
    (s.withEndLine e).endLine = e := by cases s; rfl

end SegmentAccessors

attribute [simp] Segment.startLine_mk Segment.endLine_mk Segment.nodeType_mk
  Segment.symbolName_mk Segment.startLine_withEndLine Segment.endLine_withEndLine

/-- C1: For every file path and content string (and any extracted raw
segments), every chunk produced by `ASTChunker.chunkFile` has `content`
equal to `lines[startLine-1 .. endLine-1]` of the input content joined by
newline (1-based inclusive bounds), `contentHash` equal to the lowercase-hex
SHA-256 of `content`, and `chunkId` equal to `contentHash`. -/
theorem chunkFile_content_fidelity (maxTok minTok : Nat) (filePath content : String)
    (rawSegments : List Segment) (chunk : CodeChunk)
    (hmem : chunk ∈ chunkFile maxTok minTok filePath content rawSegments) :
    chunk.content =
      String.intercalate "\n"
        (((jsSplit '\n' content).drop (chunk.startLine - 1)).take
          (chunk.endLine + 1 - chunk.startLine)) ∧
    chunk.contentHash = sha256hex chunk.content ∧
    chunk.chunkId = chunk.contentHash := by
  simp only [chunkFile, List.mem_map] at hmem
  obtain ⟨seg, -, rfl⟩ := hmem
  refine ⟨?_, rfl, rfl⟩
  have h1 : seg.startLine + 1 - 1 = seg.startLine := by omega
  have h2 : seg.endLine + 1 + 1 - (seg.startLine + 1) =
      seg.endLine + 1 - seg.startLine := by omega
  simp only [h1, h2]

/-- C1 witness: a concrete two-line file with one raw segment; the produced
chunk satisfies the fidelity properties. -/
theorem chunkFile_content_fidelity_witness :
    ((chunkFile 512 30 "a.ts" "const x = 1;\nconst y = 2;"
        [⟨0, 1, "lexical_declaration", some "x", [], []⟩]).getD 0
      ⟨"", "", 0, 0, "", "", "", none⟩) ∈
      chunkFile 512 30 "a.ts" "const x = 1;\nconst y = 2;"
        [⟨0, 1, "lexical_declaration", some "x", [], []⟩] ∧
    (((chunkFile 512 30 "a.ts" "const x = 1;\nconst y = 2;"
        [⟨0, 1, "lexical_declaration", some "x", [], []⟩]).getD 0
      ⟨"", "", 0, 0, "", "", "", none⟩).content =
      String.intercalate "\n"
        (((jsSplit '\n' "const x = 1;\nconst y = 2;").drop
            (((chunkFile 512 30 "a.ts" "const x = 1;\nconst y = 2;"
                [⟨0, 1, "lexical_declaration", some "x", [], []⟩]).getD 0
              ⟨"", "", 0, 0, "", "", "", none⟩).startLine - 1)).take
          (((chunkFile 512 30 "a.ts" "const x = 1;\nconst y = 2;"
              [⟨0, 1, "lexical_declaration", some "x", [], []⟩]).getD 0
            ⟨"", "", 0, 0, "", "", "", none⟩).endLine + 1 -
           ((chunkFile 512 30 "a.ts" "const x = 1;\nconst y = 2;"
              [⟨0, 1, "lexical_declaration", some "x", [], []⟩]).getD 0
            ⟨"", "", 0, 0, "", "", "", none⟩).startLine))) := by
  constructor
  · decide
  · exact (chunkFile_content_fidelity 512 30 "a.ts" "const x = 1;\nconst y = 2;"
      [⟨0, 1, "lexical_declaration", some "x", [], []⟩] _ (by decide)).1

/-- C9: In the small-segment merge pass, whenever the current segment `a` is
merged with the next segment `b` (one of the two is below `minChunkTokens`),
the merged segment adopts `b`'s node type and symbol name exactly when `a`'s
token estimate is strictly smaller than `b`'s; on equal estimates the merged
segment keeps `a`'s node type and symbol name (the `withEndLine` branch).
Stated for an arbitrary continuation `rest` of the pass. -/
theorem mergeSmallSegments_tie_keeps_left (lines : List String) (minTok : Nat)
    (a b : Segment) (rest : List Segment)
    (hmerge : estimateTokens lines a.startLine a.endLine < minTok ∨
              estimateTokens lines b.startLine b.endLine < minTok) :
    mergeSmallSegments lines minTok (a :: b :: rest) =
      mergeLoop lines minTok rest
        (if estimateTokens lines a.startLine a.endLine <
            estimateTokens lines b.startLine b.endLine then
          ⟨a.startLine, b.endLine, b.nodeType, b.symbolName, a.children,
           a.functionBlocks⟩
         else a.withEndLine b.endLine)
        (estimateTokens lines a.startLine b.endLine) [] := by
  simp only [mergeSmallSegments, mergeLoop, if_pos hmerge]
  split
  · simp
  · simp

/-- C9 witness: two concrete one-line segments with equal token estimates and
below the minimum; the continuation after the merge carries `a`'s node type
and symbol name (the `else` branch of the conclusion). -/
theorem mergeSmallSegments_tie_keeps_left_witness :
    (estimateTokens ["let a;", "let b;"] 0 0 < 30 ∨
     estimateTokens ["let a;", "let b;"] 1 1 < 30) ∧
    mergeSmallSegments ["let a;", "let b;"] 30
        [⟨0, 0, "lexical_declaration", some "a", [], []⟩,
         ⟨1, 1, "expression_statement", some "b", [], []⟩] =
      mergeLoop ["let a;", "let b;"] 30 []
        (if estimateTokens ["let a;", "let b;"] 0 0 <
            estimateTokens ["let a;", "let b;"] 1 1 then
          ⟨0, 1, "expression_statement", some "b", [], []⟩
         else (Segment.mk 0 0 "lexical_declaration" (some "a") [] []).withEndLine 1)
        (estimateTokens ["let a;", "let b;"] 0 1) [] := by
  refine ⟨by decide, ?_⟩
  exact mergeSmallSegments_tie_keeps_left ["let a;", "let b;"] 30
    ⟨0, 0, "lexical_declaration", some "a", [], []⟩
    ⟨1, 1, "expression_statement", some "b", [], []⟩ [] (by decide)

/-- Segment `x`'s line range lies strictly before segment `y`'s: ranges are
disjoint and in order. -/
def segBefore (x y : Segment) : Prop := x.endLine < y.startLine

instance (x y : Segment) : Decidable (segBefore x y) :=
  inferInstanceAs (Decidable (x.endLine < y.startLine))

theorem setLastEnd_start_mem (l : List Segment) (e : Nat) :
    ∀ x ∈ setLastEnd l e, ∃ y ∈ l, x.startLine = y.startLine := by
  induction l with
  | nil => simp [setLastEnd]
  | cons a t ih =>
    cases t with
    | nil =>
      intro x hx
      simp only [setLastEnd, List.mem_singleton] at hx
      subst hx
      exact ⟨a, by simp, Segment.startLine_withEndLine a e⟩
    | cons b t' =>
      intro x hx
      simp only [setLastEnd, List.mem_cons] at hx
      rcases hx with rfl | hx
      · exact ⟨x, by simp, rfl⟩
      · obtain ⟨y, hy, hxy⟩ := ih x hx
        exact ⟨y, List.mem_cons_of_mem _ hy, hxy⟩

theorem setLastEnd_pairwise (l : List Segment) (e : Nat)
    (h : List.Pairwise segBefore l) :
    List.Pairwise segBefore (setLastEnd l e) := by
  induction l with
  | nil => simp [setLastEnd]
  | cons a t ih =>
    cases t with
    | nil => simp [setLastEnd]
    | cons b t' =>
      rw [List.pairwise_cons] at h
      refine List.pairwise_cons.mpr ⟨?_, ih h.2⟩
      intro x hx
      obtain ⟨y, hy, hxy⟩ := setLastEnd_start_mem (b :: t') e x hx
      have := h.1 y hy
      unfold segBefore at this ⊢
      omega

theorem splitContainerStep_inv (lines : List String) (minTok : Nat)
    (seg : Segment) (acc : List Segment × Nat) (c : Segment)
    (h1 : List.Pairwise segBefore acc.1)
    (h2 : ∀ r ∈ acc.1, r.endLine < acc.2)
    (hle : acc.2 ≤ c.startLine) (hse : c.startLine ≤ c.endLine) :
    List.Pairwise segBefore (splitContainerStep lines minTok seg acc c).1 ∧
    (∀ r ∈ (splitContainerStep lines minTok seg acc c).1,
      r.endLine < (splitContainerStep lines minTok seg acc c).2) ∧
    (splitContainerStep lines minTok seg acc c).2 = c.endLine + 1 := by
  refine ⟨?_, ?_, by simp only [splitContainerStep]⟩
  · simp only [splitContainerStep]
    split
    · rename_i hgap
      split
      · rw [List.pairwise_append]
        refine ⟨h1, ?_, ?_⟩
        · refine List.pairwise_cons.mpr ⟨?_, by simp⟩
          intro y hy
          simp only [List.mem_singleton] at hy
          subst hy
          unfold segBefore
          simp only [Segment.endLine_mk, Segment.startLine_mk]
          omega
        · intro x hx y hy
          have hx2 := h2 x hx
          simp only [List.mem_cons, List.not_mem_nil, or_false] at hy
          unfold segBefore
          rcases hy with rfl | rfl <;>
            simp only [Segment.startLine_mk] <;> omega
      · rw [List.pairwise_append]
        refine ⟨h1, by simp, ?_⟩
        intro x hx y hy
        have hx2 := h2 x hx
        simp only [List.mem_singleton] at hy
        subst hy
        unfold segBefore
        simp only [Segment.startLine_mk]
        omega
    · rw [List.pairwise_append]
      refine ⟨h1, by simp, ?_⟩
      intro x hx y hy
      have hx2 := h2 x hx
      simp only [List.mem_singleton] at hy
      subst hy
      unfold segBefore
      simp only [Segment.startLine_mk]
      omega
  · intro r hr
    simp only [splitContainerStep] at hr ⊢
    split at hr
    · rename_i hgap
      split at hr
      · rcases List.mem_append.mp hr with hr | hr
        · have := h2 r hr; omega
        · simp only [List.mem_cons, List.not_mem_nil, or_false] at hr
          rcases hr with rfl | rfl <;> simp only [Segment.endLine_mk] <;> omega
      · rcases List.mem_append.mp hr with hr | hr
        · have := h2 r hr; omega
        · simp only [List.mem_singleton] at hr
          subst hr; simp only [Segment.endLine_mk]; omega
    · rcases List.mem_append.mp hr with hr | hr
      · have := h2 r hr; omega
      · simp only [List.mem_singleton] at hr
        subst hr; simp only [Segment.endLine_mk]; omega

theorem scFold_inv (lines : List String) (minTok : Nat) (seg : Segment) :
    ∀ (cs : List Segment) (acc : List Segment × Nat),
    List.Pairwise segBefore acc.1 →
    (∀ r ∈ acc.1, r.endLine < acc.2) →
    (∀ c, cs.head? = some c → acc.2 ≤ c.startLine) →
    List.Chain' segBefore cs →
    (∀ c ∈ cs, c.startLine ≤ c.endLine) →
    List.Pairwise segBefore
      (cs.foldl (splitContainerStep lines minTok seg) acc).1 ∧
    ∀ r ∈ (cs.foldl (splitContainerStep lines minTok seg) acc).1,
      r.endLine < (cs.foldl (splitContainerStep lines minTok seg) acc).2 := by
  intro cs
  induction cs with
  | nil => intro acc h1 h2 _ _ _; exact ⟨h1, h2⟩
  | cons c cs' ih =>
    intro acc h1 h2 h3 h4 h5
    have hle : acc.2 ≤ c.startLine := h3 c rfl
    have hse : c.startLine ≤ c.endLine := h5 c (by simp)
    obtain ⟨s1, s2, s3⟩ :=
      splitContainerStep_inv lines minTok seg acc c h1 h2 hle hse
    rw [List.foldl_cons]
    apply ih _ s1 s2
    · intro d hd
      cases cs' with
      | nil => simp at hd
      | cons d' t =>
        simp only [List.head?_cons, Option.some.injEq] at hd
        subst hd
        have := (List.chain'_cons.mp h4).1
        unfold segBefore at this
        omega
    · exact (List.chain'_cons'.mp h4).2
    · intro x hx; exact h5 x (List.mem_cons_of_mem _ hx)

/-- C4: the child segments emitted by `ASTChunker.splitContainer` have
pairwise disjoint line ranges, and none of them overlaps an emitted header
(or footer) segment: the whole emitted sequence is pairwise `segBefore`.
Hypotheses: the container's recorded children are in source order on
strictly increasing, non-overlapping line ranges starting at or after the
container's start line — which is how the extraction phase records the
method/property children of a parsed container. -/
theorem splitContainer_nonoverlap (lines : List String) (minTok : Nat)
    (seg : Segment)
    (hchain : List.Chain' segBefore seg.children)
    (hfirst : ∀ c ∈ seg.children, seg.startLine ≤ c.startLine)
    (hse : ∀ c ∈ seg.children, c.startLine ≤ c.endLine) :
    List.Pairwise segBefore (splitContainer lines minTok seg) := by
  obtain ⟨p1, p2⟩ := scFold_inv lines minTok seg seg.children ([], seg.startLine)
    (by simp) (by simp)
    (fun c hc => hfirst c (List.mem_of_mem_head? hc)) hchain hse
  simp only [splitContainer]
  split
  · split
    · rw [List.pairwise_append]
      refine ⟨p1, by simp, ?_⟩
      intro x hx y hy
      have := p2 x hx
      simp only [List.mem_singleton] at hy
      subst hy
      unfold segBefore
      simp only [Segment.startLine_mk]
      omega
    · split
      · exact setLastEnd_pairwise _ _ p1
      · exact p1
  · exact p1

/-- C4 witness: a concrete oversize container with two children separated by
a gap; the emitted header, child, and footer segments are pairwise disjoint. -/
theorem splitContainer_nonoverlap_witness :
    List.Chain' segBefore
      [⟨2, 4, "method_definition", some "m1", [], []⟩,
       (⟨6, 8, "method_definition", some "m2", [], []⟩ : Segment)] ∧
    List.Pairwise segBefore
      (splitContainer (List.replicate 10 "line of class body padding") 1
        ⟨0, 9, "class_declaration", some "C",
         [⟨2, 4, "method_definition", some "m1", [], []⟩,
          ⟨6, 8, "method_definition", some "m2", [], []⟩], []⟩) := by
  have hchain : List.Chain' segBefore
      [⟨2, 4, "method_definition", some "m1", [], []⟩,
       (⟨6, 8, "method_definition", some "m2", [], []⟩ : Segment)] :=
    List.chain'_cons.mpr ⟨by decide, List.chain'_singleton _⟩
  refine ⟨hchain, ?_⟩
  exact splitContainer_nonoverlap (List.replicate 10 "line of class body padding") 1
    ⟨0, 9, "class_declaration", some "C",
     [⟨2, 4, "method_definition", some "m1", [], []⟩,
      ⟨6, 8, "method_definition", some "m2", [], []⟩], []⟩
    hchain (by decide) (by decide)

/-! ## Merkle summary builder and differ (`src/indexer.ts`)

JavaScript `Map` and `Set` are modelled as insertion-ordered association
lists / lists (`set` replaces in place or appends; `add` appends if absent),
which reproduces their iteration order.  `Array.prototype.sort` is a stable
sort by a total preorder; it is modelled by a stable insertion sort. -/

structure FileHashEntry where
  path : String
  hash : String
deriving Repr, DecidableEq

structure MerkleNode where
  path : String
  hash : String
  isFile : Bool
  children : List String
deriving Repr, DecidableEq

/-- JavaScript string comparison (`<` on UTF-16 code-unit sequences; code
points coincide for the paths and hex hashes at hand): the `a ≤ b` form used
to model the default `Array.prototype.sort` comparator. -/
def charListLe : List Char → List Char → Bool
  | [], _ => true
  | _ :: _, [] => false
  | x :: xs, y :: ys =>
    if x = y then charListLe xs ys else decide (x.toNat < y.toNat)

def jsStrLe (a b : String) : Bool := charListLe a.toList b.toList

/-- Stable insertion: place `x` before the first `y` with `le x y`.  A stable
sort by a total preorder is unique, so this models JavaScript's (stable)
`Array.prototype.sort`. -/
def orderedInsertB {α : Type} (le : α → α → Bool) (x : α) : List α → List α
  | [] => [x]
  | y :: l => if le x y then x :: y :: l else y :: orderedInsertB le x l

/-- Stable insertion sort, the model of `Array.prototype.sort(cmp)`. -/
def insertionSortB {α : Type} (le : α → α → Bool) : List α → List α
  | [] => []
  | x :: xs => orderedInsertB le x (insertionSortB le xs)

/-- `tsParentPath` uses `p.lastIndexOf('/')`. -/
def lastIdxOf (c : Char) : List Char → Option Nat
  | [] => none
  | x :: xs =>
    match lastIdxOf c xs with
    | some i => some (i + 1)
    | none => if x = c then some 0 else none

/-- `tsParentPath`: the substring before the last `'/'`, or `"."` when the
path has no slash. -/
def tsParentPath (p : String) : String :=
  match lastIdxOf '/' p.toList with
  | some i => String.mk (p.toList.take i)
  | none => "."

/-- `p.split('/').length`, the depth key of the directory sort. -/
def depth (p : String) : Nat := (jsSplit '/' p).length

/-- JavaScript `Map.prototype.set`: replace in place or append. -/
def mapSet {α : Type} (m : List (String × α)) (k : String) (v : α) :
    List (String × α) :=
  if m.any (fun e => e.1 = k) then
    m.map (fun e => if e.1 = k then (k, v) else e)
  else m ++ [(k, v)]

/-- JavaScript `Map.prototype.get`. -/
def mapGet {α : Type} (m : List (String × α)) (k : String) : Option α :=
  (m.find? (fun e => e.1 = k)).map (·.2)

/-- JavaScript `Set.prototype.add`: append if absent. -/
def setAdd (s : List String) (x : String) : List String :=
  if x ∈ s then s else s ++ [x]

/-- `if (!dirChildren.has(parent)) dirChildren.set(parent, new Set());
dirChildren.get(parent)!.add(current)` -/
def dirAdd (dm : List (String × List String)) (parent current : String) :
    List (String × List String) :=
  match mapGet dm parent with
  | none => mapSet dm parent (setAdd [] current)
  | some s => mapSet dm parent (setAdd s current)

/-- The `while (true)` parent-registration loop of `tsBuildMerkleTree`, with
fuel; each iteration strictly shortens the path, so `registerParents` below
supplies enough fuel for the loop to run to its `break`. -/
def registerParentsF :
    Nat → List (String × List String) → String → List (String × List String)
  | 0, dm, _ => dm
  | fuel + 1, dm, current =>
    let parent := tsParentPath current
    let dm' := dirAdd dm parent current
    if parent = current ∨ parent = "." then
      if parent = "." then dirAdd dm' "." current else dm'
    else registerParentsF fuel dm' parent

/-- Register `fh.path` and all its ancestor directories in `dirChildren`. -/
def registerParents (dm : List (String × List String)) (current : String) :
    List (String × List String) :=
  registerParentsF (current.length + 1) dm current

/-- The file node inserted for one `FileHashEntry`. -/
def mkFileNode (fh : FileHashEntry) : MerkleNode :=
  ⟨fh.path, fh.hash, true, []⟩

/-- `dirChildren.get(dirPath) ?? []` (always present for the paths iterated). -/
def childrenOf (dirChildren : List (String × List String)) (d : String) :
    List String :=
  (mapGet dirChildren d).getD []

/-- `nodes.get(c)?.hash ?? ''`. -/
def lookupHash (nodes : List (String × MerkleNode)) (c : String) : String :=
  ((mapGet nodes c).map (fun n => n.hash)).getD ""

/-- One step of the bottom-up directory pass of `tsBuildMerkleTree`:
children are the sorted registered child paths, and the hash is the SHA-256
of the concatenation of the child hashes *sorted as strings* (note the second
`.sort()` after the `.map`). -/
def buildDirStep (dirChildren : List (String × List String))
    (nodes : List (String × MerkleNode)) (dirPath : String) :
    List (String × MerkleNode) :=
  let children := insertionSortB jsStrLe (childrenOf dirChildren dirPath)
  let childHashes := String.join
    (insertionSortB jsStrLe (children.map (lookupHash nodes)))
  mapSet nodes dirPath ⟨dirPath, sha256hex childHashes, false, children⟩

/-- `tsBuildMerkleTree`: insert file leaf nodes and register ancestor
directories, then build directory nodes deepest-first (stable sort by
descending `split('/').length`). -/
def tsBuildMerkleTree (fileHashes : List FileHashEntry) : List MerkleNode :=
  let st := fileHashes.foldl
    (fun (st : List (String × MerkleNode) × List (String × List String)) fh =>
      (mapSet st.1 fh.path (mkFileNode fh), registerParents st.2 fh.path))
    ([], [])
  let nodes := st.1
  let dirChildren := st.2
  let dirPaths := insertionSortB (fun a b => decide (depth b ≤ depth a))
    (dirChildren.map (·.1))
  (dirPaths.foldl (buildDirStep dirChildren) nodes).map (·.2)

/-- The result record of `tsDiffMerkleTrees`. -/
structure DiffResult where
  added : List String
  removed : List String
  modified : List String
deriving Repr, DecidableEq

/-- `tsDiffMerkleTrees`: project both node lists to their file-node subsets
(`path → hash` maps) and compare. -/
def tsDiffMerkleTrees (oldNodes newNodes : List MerkleNode) : DiffResult :=
  let oldFiles := ((oldNodes.filter (fun n => n.isFile)).map
    (fun n => (n.path, n.hash))).foldl (fun m e => mapSet m e.1 e.2) []
  let newFiles := ((newNodes.filter (fun n => n.isFile)).map
    (fun n => (n.path, n.hash))).foldl (fun m e => mapSet m e.1 e.2) []
  let am := newFiles.foldl
    (fun (am : List String × List String) e =>
      match mapGet oldFiles e.1 with
      | none => (am.1 ++ [e.1], am.2)
      | some h => if h ≠ e.2 then (am.1, am.2 ++ [e.1]) else am)
    ([], [])
  let removed := (oldFiles.filter (fun e => (mapGet newFiles e.1).isNone)).map (·.1)
  ⟨am.1, removed, am.2⟩

/-! ### Library lemmas: stable sort, association lists, paths -/

theorem orderedInsertB_perm {α : Type} (le : α → α → Bool) (x : α) (l : List α) :
    (orderedInsertB le x l).Perm (x :: l) := by
  induction l with
  | nil => exact List.Perm.refl _
  | cons y t ih =>
    simp only [orderedInsertB]
    split
    · exact List.Perm.refl _
    · exact ((ih.cons y).trans (List.Perm.swap x y t))

theorem insertionSortB_perm {α : Type} (le : α → α → Bool) (l : List α) :
    (insertionSortB le l).Perm l := by
  induction l with
  | nil => exact List.Perm.refl _
  | cons x t ih =>
    exact (orderedInsertB_perm le x (insertionSortB le t)).trans (ih.cons x)

theorem mem_insertionSortB {α : Type} (le : α → α → Bool) (l : List α) (x : α) :
    x ∈ insertionSortB le l ↔ x ∈ l :=
  (insertionSortB_perm le l).mem_iff

theorem orderedInsertB_pairwise {α : Type} (le : α → α → Bool)
    (htot : ∀ a b, le a b = true ∨ le b a = true)
    (htrans : ∀ a b c, le a b = true → le b c = true → le a c = true)
    (x : α) (l : List α) (h : List.Pairwise (fun a b => le a b = true) l) :
    List.Pairwise (fun a b => le a b = true) (orderedInsertB le x l) := by
  induction l with
  | nil => simp [orderedInsertB]
  | cons y t ih =>
    rw [List.pairwise_cons] at h
    simp only [orderedInsertB]
    split
    · rename_i hxy
      refine List.pairwise_cons.mpr ⟨?_, List.pairwise_cons.mpr h⟩
      intro z hz
      rcases List.mem_cons.mp hz with rfl | hz
      · exact hxy
      · exact htrans x y z hxy (h.1 z hz)
    · rename_i hxy
      have hyx : le y x = true := (htot x y).resolve_left hxy
      refine List.pairwise_cons.mpr ⟨?_, ih h.2⟩
      intro z hz
      rcases List.mem_cons.mp ((orderedInsertB_perm le x t).mem_iff.mp hz) with rfl | h'
      · exact hyx
      · exact h.1 z h'

theorem insertionSortB_sorted {α : Type} (le : α → α → Bool)
    (htot : ∀ a b, le a b = true ∨ le b a = true)
    (htrans : ∀ a b c, le a b = true → le b c = true → le a c = true)
    (l : List α) :
    List.Pairwise (fun a b => le a b = true) (insertionSortB le l) := by
  induction l with
  | nil => simp [insertionSortB]
  | cons x t ih => exact orderedInsertB_pairwise le htot htrans x _ ih

def keysOf {α : Type} (m : List (String × α)) : List String := m.map (·.1)

theorem find?_mapSet_replace {α : Type} (m : List (String × α)) (k : String)
    (v : α) :
    (m.map (fun e => if e.1 = k then (k, v) else e)).find? (fun e => e.1 = k) =
      if m.any (fun e => e.1 = k) then some (k, v) else none := by
  induction m with
  | nil => rfl
  | cons e t ih =>
    by_cases he : e.1 = k
    · rw [List.map_cons, if_pos he, List.find?_cons_of_pos _ (by simp),
        if_pos (List.any_cons.symm ▸ by simp [he])]
    · rw [List.map_cons, if_neg he, List.find?_cons_of_neg _ (by simp [he]), ih,
        List.any_cons]
      congr 1
      simp [he]

theorem find?_mapSet_replace_ne {α : Type} (m : List (String × α)) (k : String)
    (v : α) (k' : String) (h : k' ≠ k) :
    (m.map (fun e => if e.1 = k then (k, v) else e)).find? (fun e => e.1 = k') =
      m.find? (fun e => e.1 = k') := by
  induction m with
  | nil => rfl
  | cons e t ih =>
    by_cases he : e.1 = k
    · rw [List.map_cons, if_pos he,
        List.find?_cons_of_neg _ (by simp [Ne.symm h]),
        List.find?_cons_of_neg _ (by simp [he, Ne.symm h])]
      exact ih
    · rw [List.map_cons, if_neg he]
      by_cases hk' : e.1 = k'
      · rw [List.find?_cons_of_pos _ (by simp [hk']),
          List.find?_cons_of_pos _ (by simp [hk'])]
      · rw [List.find?_cons_of_neg _ (by simp [hk']),
          List.find?_cons_of_neg _ (by simp [hk'])]
        exact ih

theorem mapGet_set_self {α : Type} (m : List (String × α)) (k : String) (v : α) :
    mapGet (mapSet m k v) k = some v := by
  simp only [mapSet, mapGet]
  split
  · rename_i h
    rw [find?_mapSet_replace, if_pos h]
    rfl
  · rename_i h
    rw [List.find?_append]
    have h0 : m.find? (fun e => e.1 = k) = none := by
      rw [List.find?_eq_none]
      intro e he
      by_contra hc
      exact h (List.any_eq_true.mpr ⟨e, he, by simpa using hc⟩)
    rw [h0, Option.none_or, List.find?_cons_of_pos _ (by simp)]
    rfl

theorem mapGet_set_ne {α : Type} (m : List (String × α)) (k : String) (v : α)
    (k' : String) (h : k' ≠ k) :
    mapGet (mapSet m k v) k' = mapGet m k' := by
  simp only [mapSet, mapGet]
  split
  · rw [find?_mapSet_replace_ne m k v k' h]
  · rw [List.find?_append,
      List.find?_cons_of_neg _ (by simp [Ne.symm h]), List.find?_nil,
      Option.or_none]

theorem keysOf_mapSet_replace {α : Type} (m : List (String × α)) (k : String)
    (v : α) :
    (m.map (fun e => if e.1 = k then (k, v) else e)).map (·.1) = m.map (·.1) := by
  induction m with
  | nil => rfl
  | cons e t ih =>
    by_cases he : e.1 = k
    · simp only [List.map_cons, if_pos he, ih]
      simp [he]
    · simp only [List.map_cons, if_neg he, ih]

theorem keysOf_mapSet {α : Type} (m : List (String × α)) (k : String) (v : α) :
    keysOf (mapSet m k v) =
      if m.any (fun e => e.1 = k) then keysOf m else keysOf m ++ [k] := by
  simp only [mapSet, keysOf]
  by_cases hany : m.any (fun e => e.1 = k)
  · rw [if_pos hany, if_pos hany]
    exact keysOf_mapSet_replace m k v
  · rw [if_neg hany, if_neg hany]
    simp

theorem keysOf_mapSet_nodup {α : Type} (m : List (String × α)) (k : String)
    (v : α) (h : (keysOf m).Nodup) : (keysOf (mapSet m k v)).Nodup := by
  rw [keysOf_mapSet]
  split
  · exact h
  · rename_i hany
    rw [List.nodup_append]
    refine ⟨h, List.nodup_singleton k, ?_⟩
    intro a ha hb
    rcases List.mem_singleton.mp hb
    obtain ⟨e, he, hek⟩ := List.mem_map.mp ha
    exact hany (List.any_eq_true.mpr ⟨e, he, by simp [hek]⟩)

theorem mapSet_entry_pred {α : Type} (P : String × α → Prop)
    (m : List (String × α)) (k : String) (v : α)
    (hm : ∀ e ∈ m, P e) (hkv : P (k, v)) : ∀ e ∈ mapSet m k v, P e := by
  intro e he
  simp only [mapSet] at he
  split at he
  · obtain ⟨e', he', hf⟩ := List.mem_map.mp he
    by_cases h' : e'.1 = k
    · rw [if_pos h'] at hf; subst hf; exact hkv
    · rw [if_neg h'] at hf; subst hf; exact hm e' he'
  · rcases List.mem_append.mp he with he | he
    · exact hm e he
    · rcases List.mem_singleton.mp he; exact hkv

theorem mapGet_mem {α : Type} (m : List (String × α)) (k : String) (v : α)
    (h : mapGet m k = some v) : (k, v) ∈ m := by
  simp only [mapGet, Option.map_eq_some'] at h
  obtain ⟨e, he, hv⟩ := h
  have hm := List.mem_of_find?_eq_some he
  have hp := List.find?_some he
  simp only [decide_eq_true_eq] at hp
  subst hv
  rw [show (k, e.2) = e by rw [← hp]]
  exact hm

theorem mapGet_eq_of_mem_nodup {α : Type} (m : List (String × α))
    (e : String × α) (hn : (keysOf m).Nodup) (he : e ∈ m) :
    mapGet m e.1 = some e.2 := by
  induction m with
  | nil => simp at he
  | cons e' t ih =>
    rw [keysOf, List.map_cons, List.nodup_cons] at hn
    rcases List.mem_cons.mp he with rfl | he
    · simp [mapGet, List.find?]
    · by_cases h' : e'.1 = e.1
      · exfalso
        exact hn.1 (h' ▸ List.mem_map.mpr ⟨e, he, rfl⟩)
      · simp only [mapGet, List.find?]
        rw [show (decide (e'.1 = e.1)) = false by simpa using h']
        exact ih hn.2 he

/-! ### Path and depth facts -/

theorem lastIdxOf_eq_none (c : Char) (l : List Char)
    (h : lastIdxOf c l = none) : c ∉ l := by
  induction l with
  | nil => simp
  | cons x xs ih =>
    simp only [lastIdxOf] at h
    rcases hx : lastIdxOf c xs with _ | j
    · simp only [hx] at h
      split at h
      · exact absurd h (by simp)
      · rename_i hxc
        simp only [List.mem_cons, not_or]
        exact ⟨fun hc => hxc hc.symm, ih hx⟩
    · simp only [hx] at h
      exact absurd h (by simp)

theorem lastIdxOf_decomp (c : Char) (l : List Char) (i : Nat)
    (h : lastIdxOf c l = some i) :
    i < l.length ∧ l = l.take i ++ c :: l.drop (i + 1) ∧ c ∉ l.drop (i + 1) := by
  induction l generalizing i with
  | nil => simp [lastIdxOf] at h
  | cons x xs ih =>
    simp only [lastIdxOf] at h
    rcases hx : lastIdxOf c xs with _ | j
    · simp only [hx] at h
      split at h
      · rename_i hxc
        injection h with h
        subst h
        subst hxc
        refine ⟨by simp, by simp, lastIdxOf_eq_none _ _ hx⟩
      · exact absurd h (by simp)
    · simp only [hx] at h
      injection h with h
      subst h
      obtain ⟨h1, h2, h3⟩ := ih j hx
      refine ⟨?_, ?_, ?_⟩
      · simpa using Nat.succ_lt_succ h1
      · simp only [List.take_succ_cons, List.drop_succ_cons]
        conv_lhs => rw [h2]
        simp
      · simpa using h3

theorem splitChar_ne_nil (sep : Char) (l : List Char) : splitChar sep l ≠ [] := by
  cases l with
  | nil => simp [splitChar]
  | cons x xs =>
    simp only [splitChar]
    rcases h : splitChar sep xs with _ | ⟨g, gs⟩
    · simp
    · simp only [h]
      split <;> simp

theorem splitChar_no_sep (sep : Char) (t : List Char) (h : sep ∉ t) :
    splitChar sep t = [t] := by
  induction t with
  | nil => rfl
  | cons x xs ih =>
    simp only [List.mem_cons, not_or] at h
    simp only [splitChar, ih h.2, if_neg (fun hc : x = sep => h.1 hc.symm)]

theorem splitChar_append_sep (sep : Char) (k t : List Char) (ht : sep ∉ t) :
    splitChar sep (k ++ sep :: t) = splitChar sep k ++ [t] := by
  induction k with
  | nil =>
    simp [splitChar, splitChar_no_sep sep t ht]
  | cons x k' ih =>
    rcases hk : splitChar sep k' with _ | ⟨g, gs⟩
    · exact absurd hk (splitChar_ne_nil sep k')
    · show splitChar sep (x :: (k' ++ sep :: t)) = splitChar sep (x :: k') ++ [t]
      simp only [splitChar, ih, hk, List.cons_append]
      split <;> rfl

theorem depth_child (k c : String) (t : List Char)
    (hc : c.toList = k.toList ++ '/' :: t) (ht : '/' ∉ t) :
    depth c = depth k + 1 := by
  simp only [depth, jsSplit, List.length_map, hc,
    splitChar_append_sep '/' k.toList t ht, List.length_append, List.length_singleton]

theorem tsParentPath_decomp (p : String) (h : tsParentPath p ≠ ".") :
    ∃ t, p.toList = (tsParentPath p).toList ++ '/' :: t ∧ '/' ∉ t := by
  unfold tsParentPath at h ⊢
  rcases hl : lastIdxOf '/' p.toList with _ | i
  · rw [hl] at h; exact absurd rfl h
  · obtain ⟨h1, h2, h3⟩ := lastIdxOf_decomp '/' p.toList i hl
    exact ⟨p.toList.drop (i + 1), by simpa using h2, h3⟩

/-! ### Merkle build invariants -/

/-- Invariant of `dirChildren`: every registered child's parent path is the
key it is registered under. -/
def dmInv (dm : List (String × List String)) : Prop :=
  ∀ e ∈ dm, ∀ c ∈ e.2, tsParentPath c = e.1

theorem mem_setAdd (s : List String) (x y : String) (h : y ∈ setAdd s x) :
    y ∈ s ∨ y = x := by
  simp only [setAdd] at h
  split at h
  · exact Or.inl h
  · rcases List.mem_append.mp h with h | h
    · exact Or.inl h
    · exact Or.inr (List.mem_singleton.mp h)

theorem dirAdd_dmInv (dm : List (String × List String)) (parent current : String)
    (h : dmInv dm) (hp : tsParentPath current = parent) :
    dmInv (dirAdd dm parent current) := by
  unfold dirAdd
  rcases hg : mapGet dm parent with _ | s
  · refine mapSet_entry_pred _ dm parent _ h ?_
    intro c hc
    rcases mem_setAdd [] current c hc with hc | rfl
    · simp at hc
    · exact hp
  · refine mapSet_entry_pred _ dm parent _ h ?_
    intro c hc
    rcases mem_setAdd s current c hc with hc | rfl
    · exact h (parent, s) (mapGet_mem dm parent s hg) c hc
    · exact hp

theorem dirAdd_keys_nodup (dm : List (String × List String))
    (parent current : String) (h : (keysOf dm).Nodup) :
    (keysOf (dirAdd dm parent current)).Nodup := by
  unfold dirAdd
  rcases mapGet dm parent with _ | s <;> exact keysOf_mapSet_nodup _ _ _ h

theorem registerParentsF_dmInv (fuel : Nat) :
    ∀ (dm : List (String × List String)) (current : String), dmInv dm →
      dmInv (registerParentsF fuel dm current) := by
  induction fuel with
  | zero => intro dm current h; exact h
  | succ fuel ih =>
    intro dm current h
    simp only [registerParentsF]
    split
    · split
      · rename_i hbr hdot
        exact dirAdd_dmInv _ "." current
          (dirAdd_dmInv dm _ current h rfl) (by rw [hdot])
      · exact dirAdd_dmInv dm _ current h rfl
    · exact ih _ _ (dirAdd_dmInv dm _ current h rfl)

theorem registerParentsF_keys_nodup (fuel : Nat) :
    ∀ (dm : List (String × List String)) (current : String),
      (keysOf dm).Nodup → (keysOf (registerParentsF fuel dm current)).Nodup := by
  induction fuel with
  | zero => intro dm current h; exact h
  | succ fuel ih =>
    intro dm current h
    simp only [registerParentsF]
    split
    · split
      · exact dirAdd_keys_nodup _ _ _ (dirAdd_keys_nodup dm _ _ h)
      · exact dirAdd_keys_nodup dm _ _ h
    · exact ih _ _ (dirAdd_keys_nodup dm _ _ h)

/-- The invariant carried through phase 1 of `tsBuildMerkleTree`. -/
def phase1Inv (st : List (String × MerkleNode) × List (String × List String)) :
    Prop :=
  (keysOf st.1).Nodup ∧ (∀ e ∈ st.1, e.2.path = e.1 ∧ e.2.isFile = true) ∧
  (keysOf st.2).Nodup ∧ dmInv st.2

theorem phase1Inv_fold (fileHashes : List FileHashEntry) :
    phase1Inv (fileHashes.foldl
      (fun st fh => (mapSet st.1 fh.path (mkFileNode fh),
                     registerParents st.2 fh.path)) ([], [])) := by
  suffices h : ∀ (st : List (String × MerkleNode) × List (String × List String)),
      phase1Inv st → phase1Inv (fileHashes.foldl
        (fun st fh => (mapSet st.1 fh.path (mkFileNode fh),
                       registerParents st.2 fh.path)) st) by
    exact h ([], []) ⟨by simp [keysOf], by simp, by simp [keysOf], by simp [dmInv]⟩
  induction fileHashes with
  | nil => intro st h; exact h
  | cons fh t ih =>
    intro st h
    refine ih _ ⟨?_, ?_, ?_, ?_⟩
    · exact keysOf_mapSet_nodup _ _ _ h.1
    · exact mapSet_entry_pred _ _ _ _ h.2.1 ⟨rfl, rfl⟩
    · exact registerParentsF_keys_nodup _ _ _ h.2.2.1
    · exact registerParentsF_dmInv _ _ _ h.2.2.2

/-! ### Phase-2 fold lemmas -/

theorem buildDirStep_get_ne (dm : List (String × List String))
    (nodes : List (String × MerkleNode)) (d k : String) (h : k ≠ d) :
    mapGet (buildDirStep dm nodes d) k = mapGet nodes k :=
  mapGet_set_ne nodes d _ k h

theorem foldl_buildDirStep_get_stable (dm : List (String × List String))
    (l : List String) (nodes : List (String × MerkleNode)) (k : String)
    (h : k ∉ l) :
    mapGet (l.foldl (buildDirStep dm) nodes) k = mapGet nodes k := by
  induction l generalizing nodes with
  | nil => rfl
  | cons d t ih =>
    simp only [List.mem_cons, not_or] at h
    rw [List.foldl_cons, ih _ h.2, buildDirStep_get_ne dm nodes d k h.1]

theorem foldl_buildDirStep_pathInv (dm : List (String × List String))
    (l : List String) (nodes : List (String × MerkleNode))
    (h : ∀ e ∈ nodes, e.2.path = e.1) :
    ∀ e ∈ l.foldl (buildDirStep dm) nodes, e.2.path = e.1 := by
  induction l generalizing nodes with
  | nil => exact h
  | cons d t ih =>
    rw [List.foldl_cons]
    exact ih _ (mapSet_entry_pred _ _ _ _ h rfl)

theorem foldl_buildDirStep_keys_nodup (dm : List (String × List String))
    (l : List String) (nodes : List (String × MerkleNode))
    (h : (keysOf nodes).Nodup) :
    (keysOf (l.foldl (buildDirStep dm) nodes)).Nodup := by
  induction l generalizing nodes with
  | nil => exact h
  | cons d t ih =>
    rw [List.foldl_cons]
    exact ih _ (keysOf_mapSet_nodup _ _ _ h)

theorem foldl_buildDirStep_nonFile (dm : List (String × List String))
    (l : List String) (S : List String) (hl : ∀ d ∈ l, d ∈ S)
    (nodes : List (String × MerkleNode))
    (h : ∀ e ∈ nodes, e.2.isFile = false → e.1 ∈ S) :
    ∀ e ∈ l.foldl (buildDirStep dm) nodes, e.2.isFile = false → e.1 ∈ S := by
  induction l generalizing nodes with
  | nil => exact h
  | cons d t ih =>
    rw [List.foldl_cons]
    refine ih (fun x hx => hl x (List.mem_cons_of_mem _ hx)) _ ?_
    intro e he hf
    refine mapSet_entry_pred (fun e => e.2.isFile = false → e.1 ∈ S) nodes d _
      h ?_ e he hf
    intro _
    exact hl d (by simp)

theorem find?_values_by_path (m : List (String × MerkleNode)) (p : String)
    (hpath : ∀ e ∈ m, e.2.path = e.1) :
    (m.map (fun e => e.2)).find? (fun nd => nd.path = p) =
      (m.find? (fun e => e.1 = p)).map (fun e => e.2) := by
  induction m with
  | nil => rfl
  | cons e t ih =>
    have hp := hpath e (by simp)
    by_cases hk : e.1 = p
    · rw [List.map_cons, List.find?_cons_of_pos _ (by simp [hp, hk]),
        List.find?_cons_of_pos _ (by simp [hk])]
      rfl
    · rw [List.map_cons, List.find?_cons_of_neg _ (by simp [hp, hk]),
        List.find?_cons_of_neg _ (by simp [hk])]
      exact ih (fun x hx => hpath x (List.mem_cons_of_mem _ hx))

/-- Look up the hash of the node with a given path in a produced node list
(empty string when absent). -/
def nodeHashOf (nodes : List MerkleNode) (p : String) : String :=
  ((nodes.find? (fun n => n.path = p)).map (fun n => n.hash)).getD ""

theorem dir_hash_core
    (nodes0 : List (String × MerkleNode)) (dm : List (String × List String))
    (hnodup0 : (keysOf nodes0).Nodup)
    (hpath0 : ∀ e ∈ nodes0, e.2.path = e.1 ∧ e.2.isFile = true)
    (hnodupdm : (keysOf dm).Nodup)
    (hdm : dmInv dm) :
    ∀ n ∈ ((insertionSortB (fun a b => decide (depth b ≤ depth a))
        (keysOf dm)).foldl (buildDirStep dm) nodes0).map (fun e => e.2),
      n.isFile = false → n.path ≠ "." →
      n.hash = sha256hex (String.join (insertionSortB jsStrLe
        (n.children.map (nodeHashOf
          (((insertionSortB (fun a b => decide (depth b ≤ depth a))
              (keysOf dm)).foldl (buildDirStep dm) nodes0).map
            (fun e => e.2)))))) := by
  intro n hn hfile hroot
  set dps := insertionSortB (fun a b => decide (depth b ≤ depth a)) (keysOf dm)
    with hdps
  set final := dps.foldl (buildDirStep dm) nodes0 with hfinaldef
  have hdpsnodup : dps.Nodup :=
    ((insertionSortB_perm _ (keysOf dm)).nodup_iff).mpr hnodupdm
  have hsorted : List.Pairwise (fun a b => depth b ≤ depth a) dps := by
    have := insertionSortB_sorted (fun a b => decide (depth b ≤ depth a))
      (by
        intro a b
        rcases Nat.le_total (depth b) (depth a) with h | h
        · exact Or.inl (by simpa using h)
        · exact Or.inr (by simpa using h))
      (by
        intro a b c hab hbc
        simp only [decide_eq_true_eq] at hab hbc ⊢
        omega)
      (keysOf dm)
    exact this.imp (by simp)
  have hfinalpath : ∀ e ∈ final, e.2.path = e.1 :=
    foldl_buildDirStep_pathInv dm dps nodes0 (fun e he => (hpath0 e he).1)
  have hfinalnodup : (keysOf final).Nodup :=
    foldl_buildDirStep_keys_nodup dm dps nodes0 hnodup0
  have hfinalnonfile : ∀ e ∈ final, e.2.isFile = false → e.1 ∈ dps := by
    refine foldl_buildDirStep_nonFile dm dps dps (fun d hd => hd) nodes0 ?_
    intro e he hf
    rw [(hpath0 e he).2] at hf
    exact absurd hf (by simp)
  obtain ⟨e, he, rfl⟩ := List.mem_map.mp hn
  have hkey : e.1 ∈ dps := hfinalnonfile e he hfile
  have hpe : e.2.path = e.1 := hfinalpath e he
  have hedot : e.1 ≠ "." := by rw [← hpe]; exact hroot
  obtain ⟨u, v, huv⟩ := List.append_of_mem hkey
  have hninv : e.1 ∉ v := by
    have h1 : (u ++ e.1 :: v).Nodup := huv ▸ hdpsnodup
    exact (List.nodup_cons.mp h1.of_append_right).1
  have hvbound : ∀ b ∈ v, depth b ≤ depth e.1 := by
    have h1 : List.Pairwise (fun a b => depth b ≤ depth a) (u ++ e.1 :: v) :=
      huv ▸ hsorted
    have h2 := (List.pairwise_append.mp h1).2.1
    exact (List.pairwise_cons.mp h2).1
  have hfold : final = v.foldl (buildDirStep dm)
      (buildDirStep dm (u.foldl (buildDirStep dm) nodes0) e.1) := by
    rw [hfinaldef, huv, List.foldl_append, List.foldl_cons]
  have hstep : mapGet (buildDirStep dm (u.foldl (buildDirStep dm) nodes0) e.1)
      e.1 = some
        ⟨e.1,
         sha256hex (String.join (insertionSortB jsStrLe
           ((insertionSortB jsStrLe (childrenOf dm e.1)).map
             (lookupHash (u.foldl (buildDirStep dm) nodes0))))),
         false, insertionSortB jsStrLe (childrenOf dm e.1)⟩ := by
    simp only [buildDirStep]
    exact mapGet_set_self _ _ _
  have hgetfinal : mapGet final e.1 = some
      ⟨e.1,
       sha256hex (String.join (insertionSortB jsStrLe
         ((insertionSortB jsStrLe (childrenOf dm e.1)).map
           (lookupHash (u.foldl (buildDirStep dm) nodes0))))),
       false, insertionSortB jsStrLe (childrenOf dm e.1)⟩ := by
    rw [hfold, foldl_buildDirStep_get_stable dm v _ _ hninv]
    exact hstep
  have hgete : mapGet final e.1 = some e.2 :=
    mapGet_eq_of_mem_nodup final e hfinalnodup he
  have hee : e.2 =
      ⟨e.1,
       sha256hex (String.join (insertionSortB jsStrLe
         ((insertionSortB jsStrLe (childrenOf dm e.1)).map
           (lookupHash (u.foldl (buildDirStep dm) nodes0))))),
       false, insertionSortB jsStrLe (childrenOf dm e.1)⟩ := by
    rw [hgete] at hgetfinal
    exact Option.some.inj hgetfinal
  have hpar : ∀ c ∈ childrenOf dm e.1, tsParentPath c = e.1 := by
    intro c hc
    unfold childrenOf at hc
    rcases hg : mapGet dm e.1 with _ | s
    · rw [hg] at hc; simp at hc
    · rw [hg] at hc
      exact hdm (e.1, s) (mapGet_mem dm e.1 s hg) c (by simpa using hc)
  have hdepth : ∀ c ∈ childrenOf dm e.1, depth c = depth e.1 + 1 := by
    intro c hc
    have hp := hpar c hc
    have hne : tsParentPath c ≠ "." := by rw [hp]; exact hedot
    obtain ⟨t, ht1, ht2⟩ := tsParentPath_decomp c hne
    exact depth_child e.1 c t (by rw [← hp]; exact ht1) ht2
  have hstable : ∀ c ∈ childrenOf dm e.1,
      mapGet final c = mapGet (u.foldl (buildDirStep dm) nodes0) c := by
    intro c hc
    have hdc := hdepth c hc
    have hcnotv : c ∉ v := by
      intro hcv
      have := hvbound c hcv
      omega
    have hcne : c ≠ e.1 := by
      intro h
      rw [h] at hdc
      omega
    rw [hfold, foldl_buildDirStep_get_stable dm v _ c hcnotv,
      buildDirStep_get_ne dm _ e.1 c hcne]
  have hnodehash : ∀ c, nodeHashOf (final.map (fun e => e.2)) c =
      lookupHash final c := by
    intro c
    unfold nodeHashOf lookupHash mapGet
    rw [find?_values_by_path final c hfinalpath]
  rw [hee]
  show sha256hex (String.join (insertionSortB jsStrLe
    ((insertionSortB jsStrLe (childrenOf dm e.1)).map
      (lookupHash (u.foldl (buildDirStep dm) nodes0))))) =
    sha256hex (String.join (insertionSortB jsStrLe
      ((insertionSortB jsStrLe (childrenOf dm e.1)).map
        (nodeHashOf (final.map (fun e => e.2))))))
  have hmaps : (insertionSortB jsStrLe (childrenOf dm e.1)).map
      (nodeHashOf (final.map (fun e => e.2))) =
      (insertionSortB jsStrLe (childrenOf dm e.1)).map
        (lookupHash (u.foldl (buildDirStep dm) nodes0)) := by
    refine List.map_congr_left ?_
    intro c hc
    have hcC := (mem_insertionSortB _ _ _).mp hc
    rw [hnodehash c]
    unfold lookupHash
    rw [hstable c hcC]
  rw [hmaps]

/-- The per-directory-node property claimed by the specification: the hash
is the SHA-256 of the concatenation of the direct children's hashes taken in
the (alphabetically sorted) child-path order stored in `children`. -/
def dirHashInChildPathOrder (nodes : List MerkleNode) : Prop :=
  ∀ n ∈ nodes, n.isFile = false →
    n.hash = sha256hex (String.join (n.children.map (nodeHashOf nodes)))

instance (nodes : List MerkleNode) : Decidable (dirHashInChildPathOrder nodes) :=
  inferInstanceAs (Decidable (∀ n ∈ nodes, n.isFile = false →
    n.hash = sha256hex (String.join (n.children.map (nodeHashOf nodes)))))

/-- C2 counterexample: for the sorted input `[("a","ffff"), ("b","0000")]`
the root directory's hash is `sha256("0000ffff")` — the child hashes are
concatenated in *hash-sorted* order (`.map(...).sort().join('')`), not in
child-path order, which would give `sha256("ffff0000")`. -/
theorem tsBuildMerkleTree_pathOrder_counterexample :
    jsStrLe "a" "b" = true ∧
    ¬ dirHashInChildPathOrder
        (tsBuildMerkleTree [⟨"a", "ffff"⟩, ⟨"b", "0000"⟩]) := by
  constructor
  · decide
  · decide

/-- C2 (amended): in the Merkle tree built from a sorted list of
(path, file-hash) pairs, every directory node other than the root `"."` has
hash equal to the SHA-256 of the concatenation of its direct children's
hashes sorted lexicographically *as hash strings* (not in child-path order).
(The root node is excluded: top-level directories registered after `"."` in
the equal-depth stable sort are looked up before their nodes exist and
contribute `""`.) -/
theorem tsBuildMerkleTree_dir_hash_hashOrder (fileHashes : List FileHashEntry)
    (_hsorted : List.Pairwise
      (fun a b : FileHashEntry => jsStrLe a.path b.path = true) fileHashes) :
    ∀ n ∈ tsBuildMerkleTree fileHashes, n.isFile = false → n.path ≠ "." →
      n.hash = sha256hex (String.join (insertionSortB jsStrLe
        (n.children.map (nodeHashOf (tsBuildMerkleTree fileHashes))))) := by
  have h := phase1Inv_fold fileHashes
  exact dir_hash_core _ _ h.1 h.2.1 h.2.2.1 h.2.2.2

/-- C2 (amended) witness: for `[("a/x","h1"), ("b/y","h2")]`, the directory
node `"a"` satisfies the hash-sorted-concatenation property. -/
theorem tsBuildMerkleTree_dir_hash_hashOrder_witness :
    List.Pairwise (fun a b : FileHashEntry => jsStrLe a.path b.path = true)
      [⟨"a/x", "h1"⟩, ⟨"b/y", "h2"⟩] ∧
    ((tsBuildMerkleTree [⟨"a/x", "h1"⟩, ⟨"b/y", "h2"⟩]).getD 2
        ⟨"", "", true, []⟩) ∈
      tsBuildMerkleTree [⟨"a/x", "h1"⟩, ⟨"b/y", "h2"⟩] ∧
    ((tsBuildMerkleTree [⟨"a/x", "h1"⟩, ⟨"b/y", "h2"⟩]).getD 2
        ⟨"", "", true, []⟩).isFile = false ∧
    ((tsBuildMerkleTree [⟨"a/x", "h1"⟩, ⟨"b/y", "h2"⟩]).getD 2
        ⟨"", "", true, []⟩).path ≠ "." ∧
    ((tsBuildMerkleTree [⟨"a/x", "h1"⟩, ⟨"b/y", "h2"⟩]).getD 2
        ⟨"", "", true, []⟩).hash =
      sha256hex (String.join (insertionSortB jsStrLe
        ((((tsBuildMerkleTree [⟨"a/x", "h1"⟩, ⟨"b/y", "h2"⟩]).getD 2
            ⟨"", "", true, []⟩).children).map
          (nodeHashOf (tsBuildMerkleTree [⟨"a/x", "h1"⟩, ⟨"b/y", "h2"⟩]))))) := by
  have hs : List.Pairwise
      (fun a b : FileHashEntry => jsStrLe a.path b.path = true)
      [⟨"a/x", "h1"⟩, ⟨"b/y", "h2"⟩] := by
    refine List.pairwise_cons.mpr ⟨?_, List.pairwise_singleton _ _⟩
    intro b hb
    rcases List.mem_singleton.mp hb with rfl
    decide
  refine ⟨hs, by decide, by decide, by decide, ?_⟩
  exact tsBuildMerkleTree_dir_hash_hashOrder [⟨"a/x", "h1"⟩, ⟨"b/y", "h2"⟩] hs _
    (by decide) (by decide) (by decide)

/-! ### C3: Merkle build/diff round trip -/

/-- Well-formedness of a scanned file set: no path is `"."`, paths are
distinct, and no file path followed by `"/"` is a prefix of another file
path (on a real filesystem a path cannot be both a file and a directory). -/
def wellFormedPaths (X : List FileHashEntry) : Prop :=
  (∀ e ∈ X, e.path ≠ ".") ∧ (X.map (fun e => e.path)).Nodup ∧
  ∀ e₁ ∈ X, ∀ e₂ ∈ X, ¬ (e₁.path.toList ++ ['/']) <+: e₂.path.toList

theorem foldl_mapSet_append {α : Type} :
    ∀ (entries : List (String × α)) (m : List (String × α)),
    (∀ e ∈ entries, ¬ m.any (fun x => x.1 = e.1) = true) →
    (entries.map (fun e => e.1)).Nodup →
    entries.foldl (fun m e => mapSet m e.1 e.2) m = m ++ entries := by
  intro entries
  induction entries with
  | nil => intro m _ _; simp
  | cons e t ih =>
    intro m hdisj hnodup
    rw [List.map_cons, List.nodup_cons] at hnodup
    rw [List.foldl_cons]
    have hm : mapSet m e.1 e.2 = m ++ [e] := by
      rw [mapSet, if_neg (by simpa using hdisj e (by simp))]
    rw [hm, ih]
    · simp
    · intro x hx
      simp only [List.any_append, Bool.or_eq_true, not_or]
      constructor
      · have := hdisj x (List.mem_cons_of_mem _ hx)
        simpa using this
      · simp only [List.any_cons, List.any_nil, Bool.or_false,
          decide_eq_true_eq]
        intro hx1
        exact hnodup.1 (hx1 ▸ List.mem_map.mpr ⟨x, hx, rfl⟩)
    · exact hnodup.2

theorem phase1_fst (X : List FileHashEntry)
    (st : List (String × MerkleNode) × List (String × List String)) :
    (X.foldl (fun st fh => (mapSet st.1 fh.path (mkFileNode fh),
      registerParents st.2 fh.path)) st).1 =
      X.foldl (fun m fh => mapSet m fh.path (mkFileNode fh)) st.1 := by
  induction X generalizing st with
  | nil => rfl
  | cons fh t ih => rw [List.foldl_cons, List.foldl_cons, ih]

theorem phase1_nodes (X : List FileHashEntry)
    (hnodup : (X.map (fun e => e.path)).Nodup) :
    (X.foldl (fun st fh => (mapSet st.1 fh.path (mkFileNode fh),
      registerParents st.2 fh.path))
      (([], []) : List (String × MerkleNode) × List (String × List String))).1 =
      X.map (fun fh => (fh.path, mkFileNode fh)) := by
  rw [phase1_fst]
  have := foldl_mapSet_append (X.map (fun fh => (fh.path, mkFileNode fh))) []
    (by simp) (by simpa [Function.comp] using hnodup)
  rw [List.foldl_map] at this
  simpa using this

theorem tsParentPath_ne_self (p : String) (h : tsParentPath p = p) : p = "." := by
  unfold tsParentPath at h
  rcases hl : lastIdxOf '/' p.toList with _ | i
  · simp only [hl] at h
    exact h.symm
  · simp only [hl] at h
    obtain ⟨h1, _, _⟩ := lastIdxOf_decomp '/' p.toList i hl
    have hlen : (String.mk (p.toList.take i)).length = i := by
      show (p.toList.take i).length = i
      rw [List.length_take]
      omega
    rw [h] at hlen
    have hp : p.length = p.toList.length := rfl
    exfalso
    omega

theorem keysOf_dirAdd_sub (dm : List (String × List String))
    (parent current k : String) (h : k ∈ keysOf (dirAdd dm parent current)) :
    k ∈ keysOf dm ∨ k = parent := by
  unfold dirAdd at h
  rcases hg : mapGet dm parent with _ | s <;> rw [hg] at h <;>
    rw [keysOf_mapSet] at h <;> split at h
  · exact Or.inl h
  · rcases List.mem_append.mp h with h | h
    · exact Or.inl h
    · exact Or.inr (List.mem_singleton.mp h)
  · exact Or.inl h
  · rcases List.mem_append.mp h with h | h
    · exact Or.inl h
    · exact Or.inr (List.mem_singleton.mp h)

theorem registerParentsF_keys_sub (q : String) :
    ∀ (fuel : Nat) (dm : List (String × List String)) (current : String),
    (current = q ∨ (current.toList ++ ['/']) <+: q.toList) →
    ∀ k ∈ keysOf (registerParentsF fuel dm current),
      k ∈ keysOf dm ∨ k = "." ∨ (k.toList ++ ['/']) <+: q.toList := by
  intro fuel
  induction fuel with
  | zero => intro dm current _ k hk; exact Or.inl hk
  | succ fuel ih =>
    intro dm current hanc k hk
    simp only [registerParentsF] at hk
    split at hk
    · rename_i hbr
      split at hk
      · rename_i hdot
        rcases keysOf_dirAdd_sub _ _ _ _ hk with hk | rfl
        · rcases keysOf_dirAdd_sub _ _ _ _ hk with hk | rfl
          · exact Or.inl hk
          · exact Or.inr (Or.inl hdot)
        · exact Or.inr (Or.inl rfl)
      · rename_i hdot
        rcases hbr with hself | hdot'
        · have hcd : current = "." := tsParentPath_ne_self current hself
          exact absurd (by rw [hcd]; decide) hdot
        · exact absurd hdot' hdot
    · rename_i hbr
      rw [not_or] at hbr
      obtain ⟨t, ht1, ht2⟩ := tsParentPath_decomp current hbr.2
      have hpre : ((tsParentPath current).toList ++ ['/']) <+: current.toList := by
        rw [ht1]
        exact ⟨t, by simp⟩
      have hanc2 : ((tsParentPath current).toList ++ ['/']) <+: q.toList := by
        rcases hanc with rfl | hanc
        · exact hpre
        · exact hpre.trans (List.IsPrefix.trans ⟨['/'], rfl⟩ hanc)
      rcases ih _ _ (Or.inr hanc2) k hk with hk | hk
      · rcases keysOf_dirAdd_sub _ _ _ _ hk with hk | hkp
        · exact Or.inl hk
        · exact Or.inr (Or.inr (hkp ▸ hanc2))
      · exact Or.inr hk

theorem phase1_dm_keys_aux (X : List FileHashEntry) (K : String → Prop)
    (hK : ∀ fh ∈ X, ∀ k, (k = "." ∨ (k.toList ++ ['/']) <+: fh.path.toList) → K k) :
    ∀ (st : List (String × MerkleNode) × List (String × List String)),
    (∀ k ∈ keysOf st.2, K k) →
    ∀ k ∈ keysOf ((X.foldl (fun st fh => (mapSet st.1 fh.path (mkFileNode fh),
      registerParents st.2 fh.path)) st).2), K k := by
  induction X with
  | nil => intro st h; exact h
  | cons fh t ih =>
    intro st h
    rw [List.foldl_cons]
    refine ih (fun x hx => hK x (List.mem_cons_of_mem _ hx)) _ ?_
    intro k hk
    rcases registerParentsF_keys_sub fh.path _ st.2 fh.path (Or.inl rfl) k hk
      with hk | hk
    · exact h k hk
    · exact hK fh (by simp) k hk

theorem phase1_dm_keys (X : List FileHashEntry) :
    ∀ k ∈ keysOf ((X.foldl (fun st fh => (mapSet st.1 fh.path (mkFileNode fh),
      registerParents st.2 fh.path))
      (([], []) : List (String × MerkleNode) × List (String × List String))).2),
      k = "." ∨ ∃ e ∈ X, (k.toList ++ ['/']) <+: e.path.toList := by
  refine phase1_dm_keys_aux X _ ?_ ([], []) (by simp [keysOf])
  intro fh hfh k hk
  rcases hk with rfl | hk
  · exact Or.inl rfl
  · exact Or.inr ⟨fh, hfh, hk⟩

theorem foldl_buildDirStep_filter (dm : List (String × List String)) :
    ∀ (l : List String) (nodes : List (String × MerkleNode)),
    l.Nodup → (∀ d ∈ l, ¬ nodes.any (fun e => e.1 = d) = true) →
    (l.foldl (buildDirStep dm) nodes).filter (fun e => e.2.isFile) =
      nodes.filter (fun e => e.2.isFile) := by
  intro l
  induction l with
  | nil => intro nodes _ _; rfl
  | cons d t ih =>
    intro nodes hnodup hdisj
    rw [List.nodup_cons] at hnodup
    rw [List.foldl_cons]
    have hstep : buildDirStep dm nodes d = nodes ++
        [(d, ⟨d, sha256hex (String.join (insertionSortB jsStrLe
          ((insertionSortB jsStrLe (childrenOf dm d)).map (lookupHash nodes)))),
          false, insertionSortB jsStrLe (childrenOf dm d)⟩)] := by
      simp only [buildDirStep, mapSet, if_neg (hdisj d (by simp))]
    rw [ih _ hnodup.2 ?h1, hstep, List.filter_append]
    · simp
    case h1 =>
      intro d' hd'
      rw [hstep]
      simp only [List.any_append, Bool.or_eq_true, not_or]
      refine ⟨by simpa using hdisj d' (List.mem_cons_of_mem _ hd'), ?_⟩
      simp only [List.any_cons, List.any_nil, Bool.or_false, decide_eq_true_eq]
      intro hdd
      exact hnodup.1 (hdd ▸ hd')

theorem filter_map_snd (l : List (String × MerkleNode))
    (p : MerkleNode → Bool) :
    (l.map (fun e => e.2)).filter p = (l.filter (fun e => p e.2)).map
      (fun e => e.2) := by
  induction l with
  | nil => rfl
  | cons e t ih =>
    by_cases hp : p e.2
    · rw [List.map_cons, List.filter_cons_of_pos (by simpa using hp),
        List.filter_cons_of_pos (by simpa using hp), List.map_cons, ih]
    · rw [List.map_cons, List.filter_cons_of_neg (by simpa using hp),
        List.filter_cons_of_neg (by simpa using hp), ih]

/-- Under well-formed paths, the file-node subset of the built Merkle tree is
exactly the input list of file entries: no directory node ever overwrites a
file node. -/
theorem build_fileNodes (X : List FileHashEntry) (hwf : wellFormedPaths X) :
    (tsBuildMerkleTree X).filter (fun n => n.isFile) = X.map mkFileNode := by
  obtain ⟨hdot, hnodup, hpref⟩ := hwf
  show (((insertionSortB (fun a b => decide (depth b ≤ depth a))
      (keysOf (X.foldl (fun st fh => (mapSet st.1 fh.path (mkFileNode fh),
        registerParents st.2 fh.path)) ([], [])).2)).foldl
      (buildDirStep (X.foldl (fun st fh => (mapSet st.1 fh.path (mkFileNode fh),
        registerParents st.2 fh.path)) ([], [])).2)
      (X.foldl (fun st fh => (mapSet st.1 fh.path (mkFileNode fh),
        registerParents st.2 fh.path)) ([], [])).1).map (fun e => e.2)).filter
      (fun n => n.isFile) = X.map mkFileNode
  have hinv := phase1Inv_fold X
  have hn0 := phase1_nodes X hnodup
  rw [filter_map_snd]
  rw [foldl_buildDirStep_filter _ _ _
    (((insertionSortB_perm _ _).nodup_iff).mpr hinv.2.2.1) ?hdisj]
  · rw [hn0]
    have hfile : ∀ e ∈ X.map (fun fh => (fh.path, mkFileNode fh)),
        (fun e => e.2.isFile) e = true := by
      intro e he
      obtain ⟨fh, _, rfl⟩ := List.mem_map.mp he
      rfl
    rw [List.filter_eq_self.mpr hfile, List.map_map]
    rfl
  case hdisj =>
    intro d hd
    have hdk : d ∈ keysOf (X.foldl (fun st fh =>
        (mapSet st.1 fh.path (mkFileNode fh), registerParents st.2 fh.path))
        ([], [])).2 := (mem_insertionSortB _ _ _).mp hd
    have hanc := phase1_dm_keys X d hdk
    rw [hn0]
    intro hany
    rw [List.any_eq_true] at hany
    obtain ⟨x, hx, hpx⟩ := hany
    obtain ⟨e, he, rfl⟩ := List.mem_map.mp hx
    have hed : e.path = d := by simpa using hpx
    rcases hanc with rfl | ⟨e₂, he₂, hpre2⟩
    · exact hdot e he hed
    · exact hpref e he e₂ he₂ (hed ▸ hpre2)

/-- The `path → hash` file-entry projection the differ works on. -/
def fileEntries (nodes : List MerkleNode) : List (String × String) :=
  (nodes.filter (fun n => n.isFile)).map (fun n => (n.path, n.hash))

/-- The modified-test the diff loop applies to a new-file entry. -/
def diffEntryModified (A : List (String × String)) (e : String × String) :
    Bool :=
  match mapGet A e.1 with
  | none => false
  | some h => decide (h ≠ e.2)

theorem mapGet_eq_none_of_not_mem {α : Type} (m : List (String × α))
    (k : String) (h : k ∉ keysOf m) : mapGet m k = none := by
  unfold mapGet
  rw [List.find?_eq_none.mpr]
  · rfl
  · intro e he
    simp only [decide_eq_true_eq]
    intro hek
    exact h (hek ▸ List.mem_map.mpr ⟨e, he, rfl⟩)

theorem mapGet_isSome_of_mem_keys {α : Type} (m : List (String × α))
    (k : String) (h : k ∈ keysOf m) : (mapGet m k).isSome = true := by
  obtain ⟨e, he, rfl⟩ := List.mem_map.mp h
  unfold mapGet
  rcases hf : m.find? (fun x => x.1 = e.1) with _ | x
  · rw [List.find?_eq_none] at hf
    exact absurd (by simp) (hf e he)
  · rw [hf]
    rfl

theorem filter_eq_single_of_nodup (X : List FileHashEntry) (e₀ : FileHashEntry)
    (hnodup : (X.map (fun e => e.path)).Nodup) (he₀ : e₀ ∈ X) :
    X.filter (fun e => e.path = e₀.path) = [e₀] := by
  induction X with
  | nil => simp at he₀
  | cons a t ih =>
    rw [List.map_cons, List.nodup_cons] at hnodup
    rcases List.mem_cons.mp he₀ with rfl | he₀
    · rw [List.filter_cons_of_pos (by simp)]
      congr 1
      rw [List.filter_eq_nil_iff]
      intro b hb
      simp only [decide_eq_true_eq]
      intro hbp
      exact hnodup.1 (hbp ▸ List.mem_map.mpr ⟨b, hb, rfl⟩)
    · rw [List.filter_cons_of_neg, ih hnodup.2 he₀]
      simp only [decide_eq_true_eq]
      intro hap
      exact hnodup.1 (hap ▸ List.mem_map.mpr ⟨e₀, he₀, rfl⟩)

theorem diff_am_spec (A : List (String × String)) :
    ∀ (B : List (String × String)) (am : List String × List String),
    B.foldl (fun am e =>
      match mapGet A e.1 with
      | none => (am.1 ++ [e.1], am.2)
      | some h => if h ≠ e.2 then (am.1, am.2 ++ [e.1]) else am) am =
    (am.1 ++ (B.filter (fun e => (mapGet A e.1).isNone)).map (fun e => e.1),
     am.2 ++ (B.filter (diffEntryModified A)).map (fun e => e.1)) := by
  intro B
  induction B with
  | nil => intro am; simp
  | cons e t ih =>
    intro am
    rw [List.foldl_cons]
    rcases hg : mapGet A e.1 with _ | h
    · simp only [hg]
      rw [ih]
      rw [List.filter_cons_of_pos (by simp [hg]),
        List.filter_cons_of_neg (by simp [diffEntryModified, hg])]
      simp
    · simp only [hg]
      by_cases hne : h ≠ e.2
      · rw [if_pos hne, ih,
          List.filter_cons_of_neg (by simp [hg]),
          List.filter_cons_of_pos (by simp [diffEntryModified, hg, hne])]
        simp
      · rw [if_neg hne, ih,
          List.filter_cons_of_neg (by simp [hg]),
          List.filter_cons_of_neg (by simp [diffEntryModified, hg, hne])]

theorem mapFromList_nodup {α : Type} (entries : List (String × α))
    (h : (entries.map (fun e => e.1)).Nodup) :
    entries.foldl (fun m e => mapSet m e.1 e.2) [] = entries := by
  simpa using foldl_mapSet_append entries [] (by simp) h

/-- `tsDiffMerkleTrees` in terms of the two file-entry projections. -/
theorem tsDiffMerkleTrees_spec (oldNodes newNodes : List MerkleNode)
    (hA : ((fileEntries oldNodes).map (fun e => e.1)).Nodup)
    (hB : ((fileEntries newNodes).map (fun e => e.1)).Nodup) :
    tsDiffMerkleTrees oldNodes newNodes =
      ⟨((fileEntries newNodes).filter
          (fun e => (mapGet (fileEntries oldNodes) e.1).isNone)).map
          (fun e => e.1),
       ((fileEntries oldNodes).filter
          (fun e => (mapGet (fileEntries newNodes) e.1).isNone)).map
          (fun e => e.1),
       ((fileEntries newNodes).filter
          (diffEntryModified (fileEntries oldNodes))).map (fun e => e.1)⟩ := by
  have hA' := mapFromList_nodup (fileEntries oldNodes) hA
  have hB' := mapFromList_nodup (fileEntries newNodes) hB
  unfold fileEntries at hA' hB'
  simp only [tsDiffMerkleTrees]
  rw [hA', hB', diff_am_spec]
  rfl

theorem filter_of_map {α β : Type} (f : α → β) (q : β → Bool) (l : List α) :
    (l.map f).filter q = (l.filter (fun a => q (f a))).map f := by
  induction l with
  | nil => rfl
  | cons a t ih =>
    by_cases hq : q (f a) <;> simp [List.filter_cons, hq, ih]

theorem mapGet_append_left {α : Type} (A B : List (String × α)) (k : String)
    (v : α) (h : mapGet A k = some v) : mapGet (A ++ B) k = some v := by
  unfold mapGet at h ⊢
  rw [List.find?_append]
  rcases hf : A.find? (fun e => e.1 = k) with _ | x
  · rw [hf] at h; exact absurd h (by simp)
  · rw [hf] at h ⊢
    exact h

/-- C3: the Merkle diff of two builds of the same well-formed file set is
empty; adding one fresh file yields exactly that file in `added`; changing
only the hash at an existing path yields exactly that path in `modified`;
and the diff consults only the file-node subset of each node list. -/
theorem merkle_build_diff_roundtrip (X : List FileHashEntry)
    (f : FileHashEntry) (p h' : String)
    (hwf : wellFormedPaths X) (hwf2 : wellFormedPaths (X ++ [f]))
    (hp : ∃ e₀ ∈ X, e₀.path = p ∧ e₀.hash ≠ h') :
    tsDiffMerkleTrees (tsBuildMerkleTree X) (tsBuildMerkleTree X) =
      ⟨[], [], []⟩ ∧
    tsDiffMerkleTrees (tsBuildMerkleTree X) (tsBuildMerkleTree (X ++ [f])) =
      ⟨[f.path], [], []⟩ ∧
    tsDiffMerkleTrees (tsBuildMerkleTree X)
      (tsBuildMerkleTree
        (X.map (fun e => if e.path = p then ⟨e.path, h'⟩ else e))) =
      ⟨[], [], [p]⟩ ∧
    ∀ oldNodes newNodes : List MerkleNode,
      tsDiffMerkleTrees oldNodes newNodes =
        tsDiffMerkleTrees (oldNodes.filter (fun n => n.isFile))
          (newNodes.filter (fun n => n.isFile)) := by
  obtain ⟨e₀, he₀, he₀p, he₀h⟩ := hp
  have hpath_pres : ∀ e : FileHashEntry,
      (if e.path = p then (⟨e.path, h'⟩ : FileHashEntry) else e).path =
        e.path := by
    intro e
    by_cases hc : e.path = p <;> simp [hc]
  have hfe : fileEntries (tsBuildMerkleTree X) =
      X.map (fun e => (e.path, e.hash)) := by
    unfold fileEntries
    rw [build_fileNodes X hwf, List.map_map]
    rfl
  have hXEnodup : ((X.map (fun e => (e.path, e.hash))).map
      (fun e => e.1)).Nodup := by
    rw [List.map_map]
    exact hwf.2.1
  have hAn : ((fileEntries (tsBuildMerkleTree X)).map (fun e => e.1)).Nodup := by
    rw [hfe]; exact hXEnodup
  have hXE_get : ∀ e ∈ X.map (fun e => (e.path, e.hash)),
      mapGet (X.map (fun e => (e.path, e.hash))) e.1 = some e.2 := by
    intro e he
    exact mapGet_eq_of_mem_nodup _ e hXEnodup he
  refine ⟨?_, ?_, ?_, ?_⟩
  · -- (a) identical builds
    rw [tsDiffMerkleTrees_spec _ _ hAn hAn, hfe]
    have h1 : (X.map (fun e => (e.path, e.hash))).filter
        (fun e => (mapGet (X.map (fun e => (e.path, e.hash))) e.1).isNone) =
        [] := by
      rw [List.filter_eq_nil_iff]
      intro e he
      rw [hXE_get e he]
      simp
    have h2 : (X.map (fun e => (e.path, e.hash))).filter
        (diffEntryModified (X.map (fun e => (e.path, e.hash)))) = [] := by
      rw [List.filter_eq_nil_iff]
      intro e he
      simp [diffEntryModified, hXE_get e he]
    rw [h1, h2]
    rfl
  · -- (b) one fresh file
    have hfe2 : fileEntries (tsBuildMerkleTree (X ++ [f])) =
        X.map (fun e => (e.path, e.hash)) ++ [(f.path, f.hash)] := by
      unfold fileEntries
      rw [build_fileNodes _ hwf2, List.map_map, List.map_append]
      rfl
    have hBn : ((fileEntries (tsBuildMerkleTree (X ++ [f]))).map
        (fun e => e.1)).Nodup := by
      rw [hfe2, List.map_append, List.map_map]
      simpa using hwf2.2.1
    have hfresh : f.path ∉ X.map (fun e => e.path) := by
      have h1 := hwf2.2.1
      rw [List.map_append] at h1
      have h2 := (List.nodup_append.mp h1).2.2
      intro hc
      exact h2 hc (by simp)
    have hfreshk : f.path ∉ keysOf (X.map (fun e => (e.path, e.hash))) := by
      unfold keysOf
      rw [List.map_map]
      exact hfresh
    rw [tsDiffMerkleTrees_spec _ _ hAn hBn, hfe, hfe2]
    have h1 : (X.map (fun e => (e.path, e.hash)) ++ [(f.path, f.hash)]).filter
        (fun e => (mapGet (X.map (fun e => (e.path, e.hash))) e.1).isNone) =
        [(f.path, f.hash)] := by
      rw [List.filter_append, List.filter_eq_nil_iff.mpr
        (fun e he => by rw [hXE_get e he]; simp),
        List.filter_cons_of_pos
          (by rw [mapGet_eq_none_of_not_mem _ _ hfreshk]; rfl)]
      rfl
    have h2 : (X.map (fun e => (e.path, e.hash))).filter
        (fun e => (mapGet (X.map (fun e => (e.path, e.hash)) ++
          [(f.path, f.hash)]) e.1).isNone) = [] := by
      rw [List.filter_eq_nil_iff]
      intro e he
      rw [mapGet_append_left _ _ _ _ (hXE_get e he)]
      simp
    have h3 : (X.map (fun e => (e.path, e.hash)) ++ [(f.path, f.hash)]).filter
        (diffEntryModified (X.map (fun e => (e.path, e.hash)))) = [] := by
      rw [List.filter_append, List.filter_eq_nil_iff.mpr
        (fun e he => by simp [diffEntryModified, hXE_get e he]),
        List.filter_eq_nil_iff.mpr ?hsing]
      · rfl
      case hsing =>
        intro e he
        rcases List.mem_singleton.mp he with rfl
        simp [diffEntryModified, mapGet_eq_none_of_not_mem _ _ hfreshk]
    rw [h1, h2, h3]
    rfl
  · -- (c) one modified hash
    have hwf' : wellFormedPaths
        (X.map (fun e => if e.path = p then ⟨e.path, h'⟩ else e)) := by
      have hpaths : (X.map (fun e => if e.path = p then
          (⟨e.path, h'⟩ : FileHashEntry) else e)).map (fun e => e.path) =
          X.map (fun e => e.path) := by
        rw [List.map_map]
        exact List.map_congr_left (fun e _ => hpath_pres e)
      refine ⟨?_, ?_, ?_⟩
      · intro e' he'
        obtain ⟨e, he, rfl⟩ := List.mem_map.mp he'
        rw [hpath_pres e]
        exact hwf.1 e he
      · rw [hpaths]; exact hwf.2.1
      · intro e₁' he₁' e₂' he₂'
        obtain ⟨e₁, he₁, rfl⟩ := List.mem_map.mp he₁'
        obtain ⟨e₂, he₂, rfl⟩ := List.mem_map.mp he₂'
        rw [hpath_pres e₁, hpath_pres e₂]
        exact hwf.2.2 e₁ he₁ e₂ he₂
    have hfe' : fileEntries (tsBuildMerkleTree
        (X.map (fun e => if e.path = p then ⟨e.path, h'⟩ else e))) =
        X.map (fun e => ((if e.path = p then
          (⟨e.path, h'⟩ : FileHashEntry) else e).path,
          (if e.path = p then (⟨e.path, h'⟩ : FileHashEntry) else e).hash)) := by
      unfold fileEntries
      rw [build_fileNodes _ hwf', List.map_map, List.map_map]
      rfl
    have hBn : ((fileEntries (tsBuildMerkleTree
        (X.map (fun e => if e.path = p then ⟨e.path, h'⟩ else e)))).map
        (fun e => e.1)).Nodup := by
      rw [hfe', List.map_map]
      have : (X.map (fun e => ((if e.path = p then
          (⟨e.path, h'⟩ : FileHashEntry) else e).path,
          (if e.path = p then (⟨e.path, h'⟩ : FileHashEntry) else e).hash))).map
          (fun e => e.1) = X.map (fun e => e.path) := by
        rw [List.map_map]
        exact List.map_congr_left (fun e _ => hpath_pres e)
      rw [List.map_map] at this
      exact this ▸ hwf.2.1
    rw [tsDiffMerkleTrees_spec _ _ hAn hBn, hfe, hfe']
    have huniq : ∀ e ∈ X, e.path = p → e = e₀ := by
      intro e he hep
      have h1 := filter_eq_single_of_nodup X e₀ hwf.2.1 he₀
      have h2 : e ∈ X.filter (fun e => e.path = e₀.path) :=
        List.mem_filter.mpr ⟨he, by simp [hep, he₀p]⟩
      rw [h1] at h2
      exact List.mem_singleton.mp h2
    have hptwise : ∀ e ∈ X,
        diffEntryModified (X.map (fun e => (e.path, e.hash)))
          ((if e.path = p then (⟨e.path, h'⟩ : FileHashEntry) else e).path,
           (if e.path = p then (⟨e.path, h'⟩ : FileHashEntry) else e).hash) =
          decide (e.path = p) := by
      intro e he
      have hget : mapGet (X.map (fun e => (e.path, e.hash))) e.path =
          some e.hash := hXE_get (e.path, e.hash) (List.mem_map.mpr ⟨e, he, rfl⟩)
      by_cases hc : e.path = p
      · rcases huniq e he hc with rfl
        simp only [if_pos hc, diffEntryModified, hget]
        simp [he₀h, hc]
      · simp [diffEntryModified, hc, hget]
    have h1 : (X.map (fun e => ((if e.path = p then
        (⟨e.path, h'⟩ : FileHashEntry) else e).path,
        (if e.path = p then (⟨e.path, h'⟩ : FileHashEntry) else e).hash))).filter
        (fun e => (mapGet (X.map (fun e => (e.path, e.hash))) e.1).isNone) =
        [] := by
      rw [List.filter_eq_nil_iff]
      intro e' he'
      obtain ⟨e, he, rfl⟩ := List.mem_map.mp he'
      have : (((if e.path = p then (⟨e.path, h'⟩ : FileHashEntry) else e).path,
          (if e.path = p then (⟨e.path, h'⟩ : FileHashEntry) else e).hash)).1 =
          e.path := hpath_pres e
      rw [this, hXE_get (e.path, e.hash) (List.mem_map.mpr ⟨e, he, rfl⟩)]
      simp
    have h2 : (X.map (fun e => (e.path, e.hash))).filter
        (fun e => (mapGet (X.map (fun e => ((if e.path = p then
          (⟨e.path, h'⟩ : FileHashEntry) else e).path,
          (if e.path = p then (⟨e.path, h'⟩ : FileHashEntry) else e).hash)))
          e.1).isNone) = [] := by
      rw [List.filter_eq_nil_iff]
      intro e he
      obtain ⟨ex, hex, rfl⟩ := List.mem_map.mp he
      have hkeys : ex.path ∈ keysOf (X.map (fun e => ((if e.path = p then
          (⟨e.path, h'⟩ : FileHashEntry) else e).path,
          (if e.path = p then (⟨e.path, h'⟩ : FileHashEntry) else e).hash))) := by
        unfold keysOf
        rw [List.map_map]
        refine List.mem_map.mpr ⟨ex, hex, ?_⟩
        exact hpath_pres ex
      have hsome := mapGet_isSome_of_mem_keys _ _ hkeys
      intro hno
      rw [Option.isNone_iff_eq_none] at hno
      rw [hno] at hsome
      simp at hsome
    have h3 : ((X.map (fun e => ((if e.path = p then
        (⟨e.path, h'⟩ : FileHashEntry) else e).path,
        (if e.path = p then (⟨e.path, h'⟩ : FileHashEntry) else e).hash))).filter
        (diffEntryModified (X.map (fun e => (e.path, e.hash))))).map
        (fun e => e.1) = [p] := by
      rw [filter_of_map, List.filter_congr hptwise, ← he₀p,
        filter_eq_single_of_nodup X e₀ hwf.2.1 he₀]
      simp
    rw [h1, h2, h3]
    rfl
  · -- (d) only the file subset matters
    intro oldNodes newNodes
    have hid : ∀ (l : List MerkleNode),
        (l.filter (fun n => n.isFile)).filter (fun n => n.isFile) =
          l.filter (fun n => n.isFile) :=
      fun l => List.filter_eq_self.mpr (fun a ha => (List.mem_filter.mp ha).2)
    simp only [tsDiffMerkleTrees, hid]

instance (X : List FileHashEntry) : Decidable (wellFormedPaths X) :=
  inferInstanceAs (Decidable ((∀ e ∈ X, e.path ≠ ".") ∧
    (X.map (fun e => e.path)).Nodup ∧
    ∀ e₁ ∈ X, ∀ e₂ ∈ X, ¬ (e₁.path.toList ++ ['/']) <+: e₂.path.toList))

/-- C3 witness: a concrete one-file set, a fresh file `"b"`, and a changed
hash at `"a"`. -/
theorem merkle_build_diff_roundtrip_witness :
    wellFormedPaths [⟨"a", "h1"⟩] ∧
    wellFormedPaths ([⟨"a", "h1"⟩] ++ [⟨"b", "h2"⟩]) ∧
    (∃ e₀ ∈ [(⟨"a", "h1"⟩ : FileHashEntry)], e₀.path = "a" ∧ e₀.hash ≠ "h3") ∧
    tsDiffMerkleTrees (tsBuildMerkleTree [⟨"a", "h1"⟩])
      (tsBuildMerkleTree [⟨"a", "h1"⟩]) = ⟨[], [], []⟩ ∧
    tsDiffMerkleTrees (tsBuildMerkleTree [⟨"a", "h1"⟩])
      (tsBuildMerkleTree ([⟨"a", "h1"⟩] ++ [⟨"b", "h2"⟩])) =
      ⟨[FileHashEntry.path ⟨"b", "h2"⟩], [], []⟩ ∧
    tsDiffMerkleTrees (tsBuildMerkleTree [⟨"a", "h1"⟩])
      (tsBuildMerkleTree ([(⟨"a", "h1"⟩ : FileHashEntry)].map
        (fun e => if e.path = "a" then ⟨e.path, "h3"⟩ else e))) =
      ⟨[], [], ["a"]⟩ := by
  have h := merkle_build_diff_roundtrip [⟨"a", "h1"⟩] ⟨"b", "h2"⟩ "a" "h3"
    (by decide) (by decide) (by decide)
  exact ⟨by decide, by decide, by decide, h.1, h.2.1, h.2.2.1⟩

/-! ## Indexer orchestration (`Indexer.index`, `src/indexer.ts`)

The external world is explicit: the scanner, hasher, file reads, the
tree-sitter parse, the cache content, and the embedding provider are inputs;
calls with side effects (vector-store delete/upsert, provider calls, cache
writes, state persistence) are recorded in an effect list in program order.
The vector type `V` is abstract. -/

structure IndexStats where
  totalFiles : Nat
  totalChunks : Nat
  newChunks : Nat
  cachedChunks : Nat
  indexTimeMs : Nat
deriving Repr, DecidableEq

structure VectorPayload where
  filePath : String
  startLine : Nat
  endLine : Nat
  contentHash : String
  nodeType : String
  symbolName : Option String
deriving Repr, DecidableEq

/-- One point passed to `vectorStore.upsert` (vector `none` models the
JavaScript `undefined` of an out-of-range `newEmbeddings[i]`). -/
structure UpsertPoint (V : Type) where
  id : String
  vector : Option V
  payload : VectorPayload

/-- The externally visible side effects of one `index()` run, in order. -/
inductive IndexEffect (V : Type) where
  | deleteByFilePaths (paths : List String)
  | embedBatch (texts : List String)
  | cacheSet (contentHash : String) (vector : Option V)
  | upsert (points : List (UpsertPoint V))
  | saveMerkleState (nodes : List MerkleNode)
  | saveCache

/-- The inputs `index()` reads from its environment. -/
structure IndexInputs (V : Type) where
  filePaths : List String
  fileHashes : List FileHashEntry
  oldMerkleNodes : List MerkleNode
  readFile : String → Option String
  relPath : String → String
  resolvePath : String → String
  parse : String → String → List Segment
  cacheGet : String → Option V
  embedBatch : List String → List V
  maxTok : Nat
  minTok : Nat
  elapsed : Nat

/-- `Indexer.index`: build the new Merkle summary, diff against the loaded
one, return early on no change, otherwise delete outdated vectors, chunk the
selected files, partition by cache, embed the misses, upsert everything, and
persist the summary and cache. -/
def Indexer.index {V : Type} (inp : IndexInputs V) :
    IndexStats × List (IndexEffect V) :=
  let newMerkleNodes := tsBuildMerkleTree inp.fileHashes
  let diff := tsDiffMerkleTrees inp.oldMerkleNodes newMerkleNodes
  let changedFiles := diff.added ++ diff.modified
  let removedFiles := diff.removed
  if changedFiles.length = 0 ∧ removedFiles.length = 0 ∧
      0 < inp.oldMerkleNodes.length then
    ({ totalFiles := inp.filePaths.length, totalChunks := 0, newChunks := 0,
       cachedChunks := 0, indexTimeMs := inp.elapsed }, [])
  else
    let effects1 : List (IndexEffect V) :=
      if 0 < removedFiles.length ∨ 0 < diff.modified.length then
        [IndexEffect.deleteByFilePaths (removedFiles ++ diff.modified)]
      else []
    let filesToProcess :=
      if inp.oldMerkleNodes.length = 0 then inp.filePaths
      else changedFiles.map inp.resolvePath
    let allChunks := filesToProcess.flatMap (fun fp =>
      match inp.readFile fp with
      | none => []
      | some content =>
        chunkFile inp.maxTok inp.minTok (inp.relPath fp) content
          (inp.parse (inp.relPath fp) content))
    let part := allChunks.foldl
      (fun (st : List (CodeChunk × V) × List CodeChunk) chunk =>
        match inp.cacheGet chunk.contentHash with
        | some v => (st.1 ++ [(chunk, v)], st.2)
        | none => (st.1, st.2 ++ [chunk])) ([], [])
    let cachedResults := part.1
    let uncachedChunks := part.2
    let newEmbeddings :=
      if 0 < uncachedChunks.length then
        inp.embedBatch (uncachedChunks.map (fun c => c.content))
      else []
    let effects2 : List (IndexEffect V) :=
      if 0 < uncachedChunks.length then
        [IndexEffect.embedBatch (uncachedChunks.map (fun c => c.content))]
      else []
    let effects3 : List (IndexEffect V) :=
      uncachedChunks.enum.map (fun ic =>
        IndexEffect.cacheSet ic.2.contentHash newEmbeddings[ic.1]?)
    let points : List (UpsertPoint V) :=
      cachedResults.map (fun cv =>
        ⟨cv.1.chunkId, some cv.2,
         ⟨cv.1.filePath, cv.1.startLine, cv.1.endLine, cv.1.contentHash,
          cv.1.nodeType, cv.1.symbolName⟩⟩) ++
      uncachedChunks.enum.map (fun ic =>
        ⟨ic.2.chunkId, newEmbeddings[ic.1]?,
         ⟨ic.2.filePath, ic.2.startLine, ic.2.endLine, ic.2.contentHash,
          ic.2.nodeType, ic.2.symbolName⟩⟩)
    ({ totalFiles := inp.filePaths.length, totalChunks := allChunks.length,
       newChunks := uncachedChunks.length,
       cachedChunks := cachedResults.length, indexTimeMs := inp.elapsed },
     effects1 ++ effects2 ++ effects3 ++ [IndexEffect.upsert points] ++
     [IndexEffect.saveMerkleState newMerkleNodes, IndexEffect.saveCache])

/-- C5: when the loaded Merkle summary is non-empty and the diff against the
newly built summary is empty in all three sets, `index()` reports zero
total/new/cached chunks and performs no external effect at all: no
vector-store delete, no embedding-provider call, no cache write, no upsert,
and no write of the Merkle summary or the cache file. -/
theorem index_no_change_frame {V : Type} (inp : IndexInputs V)
    (hold : 0 < inp.oldMerkleNodes.length)
    (hdiff : tsDiffMerkleTrees inp.oldMerkleNodes
      (tsBuildMerkleTree inp.fileHashes) = ⟨[], [], []⟩) :
    (Indexer.index inp).1.totalChunks = 0 ∧
    (Indexer.index inp).1.newChunks = 0 ∧
    (Indexer.index inp).1.cachedChunks = 0 ∧
    (Indexer.index inp).2 = [] := by
  simp [Indexer.index, hdiff, hold]

/-- C5 witness: a concrete unchanged run over one file. -/
theorem index_no_change_frame_witness :
    0 < (IndexInputs.oldMerkleNodes (V := Unit)
      ⟨["/r/a"], [⟨"a", "h"⟩], tsBuildMerkleTree [⟨"a", "h"⟩],
       fun _ => none, fun p => p, fun p => p, fun _ _ => [],
       fun _ => none, fun _ => [], 512, 30, 5⟩).length ∧
    (Indexer.index (V := Unit)
      ⟨["/r/a"], [⟨"a", "h"⟩], tsBuildMerkleTree [⟨"a", "h"⟩],
       fun _ => none, fun p => p, fun p => p, fun _ _ => [],
       fun _ => none, fun _ => [], 512, 30, 5⟩).1.totalChunks = 0 ∧
    (Indexer.index (V := Unit)
      ⟨["/r/a"], [⟨"a", "h"⟩], tsBuildMerkleTree [⟨"a", "h"⟩],
       fun _ => none, fun p => p, fun p => p, fun _ _ => [],
       fun _ => none, fun _ => [], 512, 30, 5⟩).2 = [] := by
  have h := index_no_change_frame (V := Unit)
    ⟨["/r/a"], [⟨"a", "h"⟩], tsBuildMerkleTree [⟨"a", "h"⟩],
     fun _ => none, fun p => p, fun p => p, fun _ _ => [],
     fun _ => none, fun _ => [], 512, 30, 5⟩
    (by decide) (by decide)
  exact ⟨by decide, h.1, h.2.2.2⟩

theorem cache_partition_lengths {V : Type} (get : String → Option V) :
    ∀ (l : List CodeChunk) (acc : List (CodeChunk × V) × List CodeChunk),
    (l.foldl (fun st chunk =>
      match get chunk.contentHash with
      | some v => (st.1 ++ [(chunk, v)], st.2)
      | none => (st.1, st.2 ++ [chunk])) acc).1.length +
    (l.foldl (fun st chunk =>
      match get chunk.contentHash with
      | some v => (st.1 ++ [(chunk, v)], st.2)
      | none => (st.1, st.2 ++ [chunk])) acc).2.length =
    acc.1.length + acc.2.length + l.length := by
  intro l
  induction l with
  | nil => intro acc; simp
  | cons c t ih =>
    intro acc
    rw [List.foldl_cons]
    rcases hg : get c.contentHash with _ | v
    · simp only [hg]
      rw [ih]
      simp only [List.length_append, List.length_cons, List.length_nil]
      omega
    · simp only [hg]
      rw [ih]
      simp only [List.length_append, List.length_cons, List.length_nil]
      omega

/-- C10: whenever an `index()` run proceeds past the no-change early return,
the reported statistics satisfy `totalChunks = newChunks + cachedChunks`:
the cache-lookup loop places every produced chunk in exactly one of the
cached and uncached partitions. -/
theorem index_total_chunks_partition {V : Type} (inp : IndexInputs V)
    (hproceed : ¬ (((tsDiffMerkleTrees inp.oldMerkleNodes
        (tsBuildMerkleTree inp.fileHashes)).added ++
      (tsDiffMerkleTrees inp.oldMerkleNodes
        (tsBuildMerkleTree inp.fileHashes)).modified).length = 0 ∧
      (tsDiffMerkleTrees inp.oldMerkleNodes
        (tsBuildMerkleTree inp.fileHashes)).removed.length = 0 ∧
      0 < inp.oldMerkleNodes.length)) :
    (Indexer.index inp).1.totalChunks =
      (Indexer.index inp).1.newChunks + (Indexer.index inp).1.cachedChunks := by
  simp only [Indexer.index, if_neg hproceed]
  have h := cache_partition_lengths inp.cacheGet
    (((if inp.oldMerkleNodes.length = 0 then inp.filePaths
      else ((tsDiffMerkleTrees inp.oldMerkleNodes
        (tsBuildMerkleTree inp.fileHashes)).added ++
        (tsDiffMerkleTrees inp.oldMerkleNodes
          (tsBuildMerkleTree inp.fileHashes)).modified).map
        inp.resolvePath)).flatMap (fun fp =>
      match inp.readFile fp with
      | none => []
      | some content =>
        chunkFile inp.maxTok inp.minTok (inp.relPath fp) content
          (inp.parse (inp.relPath fp) content))) ([], [])
  simp only [List.length_nil] at h
  omega

/-- C10 witness: an initial run (empty previous summary) over one file
producing one chunk. -/
theorem index_total_chunks_partition_witness :
    ¬ (((tsDiffMerkleTrees ([] : List MerkleNode)
        (tsBuildMerkleTree [⟨"a", "h"⟩])).added ++
      (tsDiffMerkleTrees ([] : List MerkleNode)
        (tsBuildMerkleTree [⟨"a", "h"⟩])).modified).length = 0 ∧
      (tsDiffMerkleTrees ([] : List MerkleNode)
        (tsBuildMerkleTree [⟨"a", "h"⟩])).removed.length = 0 ∧
      0 < ([] : List MerkleNode).length) ∧
    (Indexer.index (V := Unit)
      ⟨["a"], [⟨"a", "h"⟩], [], fun _ => some "const x = 1;",
       fun p => p, fun p => p,
       fun _ _ => [⟨0, 0, "lexical_declaration", some "x", [], []⟩],
       fun _ => none, fun l => l.map (fun _ => ()), 512, 30, 7⟩).1.totalChunks =
      (Indexer.index (V := Unit)
        ⟨["a"], [⟨"a", "h"⟩], [], fun _ => some "const x = 1;",
         fun p => p, fun p => p,
         fun _ _ => [⟨0, 0, "lexical_declaration", some "x", [], []⟩],
         fun _ => none, fun l => l.map (fun _ => ()), 512, 30, 7⟩).1.newChunks +
      (Indexer.index (V := Unit)
        ⟨["a"], [⟨"a", "h"⟩], [], fun _ => some "const x = 1;",
         fun p => p, fun p => p,
         fun _ _ => [⟨0, 0, "lexical_declaration", some "x", [], []⟩],
         fun _ => none, fun l => l.map (fun _ => ()), 512, 30, 7⟩).1.cachedChunks := by
  constructor
  · decide
  · exact index_total_chunks_partition (V := Unit)
      ⟨["a"], [⟨"a", "h"⟩], [], fun _ => some "const x = 1;",
       fun p => p, fun p => p,
       fun _ _ => [⟨0, 0, "lexical_declaration", some "x", [], []⟩],
       fun _ => none, fun l => l.map (fun _ => ()), 512, 30, 7⟩
      (by decide)

/-! ## Vector-store record id derivation (`sha256ToUuid`) -/

/-- `parseInt(c, 16)` on one character; a non-hex character gives `NaN`,
which the following bitwise operations coerce to `0`. -/
def hexVal (c : Char) : Nat :=
  if '0' ≤ c ∧ c ≤ '9' then c.toNat - 48
  else if 'a' ≤ c ∧ c ≤ 'f' then c.toNat - 87
  else if 'A' ≤ c ∧ c ≤ 'F' then c.toNat - 55
  else 0

/-- `sha256ToUuid` on the character list: first 32 hex chars arranged
8-4-4-4-12 with dashes, version nibble (index 14) forced to `'5'`, variant
nibble (index 19) forced to `(v & 0x3) | 0x8` in hex. -/
def sha256ToUuidChars (l : List Char) : List Char :=
  let hex := l.take 32
  let uuid := hex.take 8 ++ '-' :: (hex.drop 8).take 4 ++ '-' ::
    (hex.drop 12).take 4 ++ '-' :: (hex.drop 16).take 4 ++ '-' ::
    (hex.drop 20).take 12
  let chars := uuid.set 14 '5'
  let variantChar := hexVal (chars.getD 19 ' ')
  chars.set 19 (Sha256.hexDigit ((variantChar &&& 0x3) ||| 0x8))

/-- `sha256ToUuid` of `vector-store.ts`. -/
def sha256ToUuid (sha256Hex : String) : String :=
  String.mk (sha256ToUuidChars sha256Hex.toList)

def lowerHexDigits : List Char :=
  ['f', 'e', 'd', 'c', 'b', 'a', '9', '8',
   '7', '6', '5', '4', '3', '2', '1', '0']

/-- C8: for every 64-character lowercase-hex content hash, the derived
record id consists of the hash's first 32 hex characters with dashes at
positions 8-4-4-4-12, except that the character at index 14 is `'5'` and the
character at index 19 (replacing hex char 16) is one of
`'8'`, `'9'`, `'a'`, `'b'`. -/
theorem sha256ToUuid_shape (s : String) (hlen : s.toList.length = 64)
    (hhex : ∀ c ∈ s.toList, c ∈ lowerHexDigits) :
    ∃ vc ∈ (['8', '9', 'a', 'b'] : List Char),
      (sha256ToUuid s).toList =
        s.toList.take 8 ++ '-' :: (s.toList.drop 8).take 4 ++ '-' ::
        '5' :: (s.toList.drop 13).take 3 ++ '-' ::
        vc :: (s.toList.drop 17).take 3 ++ '-' ::
        (s.toList.drop 20).take 12 := by
  show ∃ vc ∈ (['8', '9', 'a', 'b'] : List Char),
      sha256ToUuidChars s.toList =
        s.toList.take 8 ++ '-' :: (s.toList.drop 8).take 4 ++ '-' ::
        '5' :: (s.toList.drop 13).take 3 ++ '-' ::
        vc :: (s.toList.drop 17).take 3 ++ '-' ::
        (s.toList.drop 20).take 12
  generalize s.toList = l at hlen hhex ⊢
  rcases l with _ | ⟨c0, l⟩
  · exfalso
    simp only [List.length_cons, List.length_nil] at hlen
    omega
  rcases l with _ | ⟨c1, l⟩
  · exfalso
    simp only [List.length_cons, List.length_nil] at hlen
    omega
  rcases l with _ | ⟨c2, l⟩
  · exfalso
    simp only [List.length_cons, List.length_nil] at hlen
    omega
  rcases l with _ | ⟨c3, l⟩
  · exfalso
    simp only [List.length_cons, List.length_nil] at hlen
    omega
  rcases l with _ | ⟨c4, l⟩
  · exfalso
    simp only [List.length_cons, List.length_nil] at hlen
    omega
  rcases l with _ | ⟨c5, l⟩
  · exfalso
    simp only [List.length_cons, List.length_nil] at hlen
    omega
  rcases l with _ | ⟨c6, l⟩
  · exfalso
    simp only [List.length_cons, List.length_nil] at hlen
    omega
  rcases l with _ | ⟨c7, l⟩
  · exfalso
    simp only [List.length_cons, List.length_nil] at hlen
    omega
  rcases l with _ | ⟨c8, l⟩
  · exfalso
    simp only [List.length_cons, List.length_nil] at hlen
    omega
  rcases l with _ | ⟨c9, l⟩
  · exfalso
    simp only [List.length_cons, List.length_nil] at hlen
    omega
  rcases l with _ | ⟨c10, l⟩
  · exfalso
    simp only [List.length_cons, List.length_nil] at hlen
    omega
  rcases l with _ | ⟨c11, l⟩
  · exfalso
    simp only [List.length_cons, List.length_nil] at hlen
    omega
  rcases l with _ | ⟨c12, l⟩
  · exfalso
    simp only [List.length_cons, List.length_nil] at hlen
    omega
  rcases l with _ | ⟨c13, l⟩
  · exfalso
    simp only [List.length_cons, List.length_nil] at hlen
    omega
  rcases l with _ | ⟨c14, l⟩
  · exfalso
    simp only [List.length_cons, List.length_nil] at hlen
    omega
  rcases l with _ | ⟨c15, l⟩
  · exfalso
    simp only [List.length_cons, List.length_nil] at hlen
    omega
  rcases l with _ | ⟨c16, l⟩
  · exfalso
    simp only [List.length_cons, List.length_nil] at hlen
    omega
  rcases l with _ | ⟨c17, l⟩
  · exfalso
    simp only [List.length_cons, List.length_nil] at hlen
    omega
  rcases l with _ | ⟨c18, l⟩
  · exfalso
    simp only [List.length_cons, List.length_nil] at hlen
    omega
  rcases l with _ | ⟨c19, l⟩
  · exfalso
    simp only [List.length_cons, List.length_nil] at hlen
    omega
  rcases l with _ | ⟨c20, l⟩
  · exfalso
    simp only [List.length_cons, List.length_nil] at hlen
    omega
  rcases l with _ | ⟨c21, l⟩
  · exfalso
    simp only [List.length_cons, List.length_nil] at hlen
    omega
  rcases l with _ | ⟨c22, l⟩
  · exfalso
    simp only [List.length_cons, List.length_nil] at hlen
    omega
  rcases l with _ | ⟨c23, l⟩
  · exfalso
    simp only [List.length_cons, List.length_nil] at hlen
    omega
  rcases l with _ | ⟨c24, l⟩
  · exfalso
    simp only [List.length_cons, List.length_nil] at hlen
    omega
  rcases l with _ | ⟨c25, l⟩
  · exfalso
    simp only [List.length_cons, List.length_nil] at hlen
    omega
  rcases l with _ | ⟨c26, l⟩
  · exfalso
    simp only [List.length_cons, List.length_nil] at hlen
    omega
  rcases l with _ | ⟨c27, l⟩
  · exfalso
    simp only [List.length_cons, List.length_nil] at hlen
    omega
  rcases l with _ | ⟨c28, l⟩
  · exfalso
    simp only [List.length_cons, List.length_nil] at hlen
    omega
  rcases l with _ | ⟨c29, l⟩
  · exfalso
    simp only [List.length_cons, List.length_nil] at hlen
    omega
  rcases l with _ | ⟨c30, l⟩
  · exfalso
    simp only [List.length_cons, List.length_nil] at hlen
    omega
  rcases l with _ | ⟨c31, l⟩
  · exfalso
    simp only [List.length_cons, List.length_nil] at hlen
    omega
  rcases l with _ | ⟨c32, l⟩
  · exfalso
    simp only [List.length_cons, List.length_nil] at hlen
    omega
  rcases l with _ | ⟨c33, l⟩
  · exfalso
    simp only [List.length_cons, List.length_nil] at hlen
    omega
  rcases l with _ | ⟨c34, l⟩
  · exfalso
    simp only [List.length_cons, List.length_nil] at hlen
    omega
  rcases l with _ | ⟨c35, l⟩
  · exfalso
    simp only [List.length_cons, List.length_nil] at hlen
    omega
  rcases l with _ | ⟨c36, l⟩
  · exfalso
    simp only [List.length_cons, List.length_nil] at hlen
    omega
  rcases l with _ | ⟨c37, l⟩
  · exfalso
    simp only [List.length_cons, List.length_nil] at hlen
    omega
  rcases l with _ | ⟨c38, l⟩
  · exfalso
    simp only [List.length_cons, List.length_nil] at hlen
    omega
  rcases l with _ | ⟨c39, l⟩
  · exfalso
    simp only [List.length_cons, List.length_nil] at hlen
    omega
  rcases l with _ | ⟨c40, l⟩
  · exfalso
    simp only [List.length_cons, List.length_nil] at hlen
    omega
  rcases l with _ | ⟨c41, l⟩
  · exfalso
    simp only [List.length_cons, List.length_nil] at hlen
    omega
  rcases l with _ | ⟨c42, l⟩
  · exfalso
    simp only [List.length_cons, List.length_nil] at hlen
    omega
  rcases l with _ | ⟨c43, l⟩
  · exfalso
    simp only [List.length_cons, List.length_nil] at hlen
    omega
  rcases l with _ | ⟨c44, l⟩
  · exfalso
    simp only [List.length_cons, List.length_nil] at hlen
    omega
  rcases l with _ | ⟨c45, l⟩
  · exfalso
    simp only [List.length_cons, List.length_nil] at hlen
    omega
  rcases l with _ | ⟨c46, l⟩
  · exfalso
    simp only [List.length_cons, List.length_nil] at hlen
    omega
  rcases l with _ | ⟨c47, l⟩
  · exfalso
    simp only [List.length_cons, List.length_nil] at hlen
    omega
  rcases l with _ | ⟨c48, l⟩
  · exfalso
    simp only [List.length_cons, List.length_nil] at hlen
    omega
  rcases l with _ | ⟨c49, l⟩
  · exfalso
    simp only [List.length_cons, List.length_nil] at hlen
    omega
  rcases l with _ | ⟨c50, l⟩
  · exfalso
    simp only [List.length_cons, List.length_nil] at hlen
    omega
  rcases l with _ | ⟨c51, l⟩
  · exfalso
    simp only [List.length_cons, List.length_nil] at hlen
    omega
  rcases l with _ | ⟨c52, l⟩
  · exfalso
    simp only [List.length_cons, List.length_nil] at hlen
    omega
  rcases l with _ | ⟨c53, l⟩
  · exfalso
    simp only [List.length_cons, List.length_nil] at hlen
    omega
  rcases l with _ | ⟨c54, l⟩
  · exfalso
    simp only [List.length_cons, List.length_nil] at hlen
    omega
  rcases l with _ | ⟨c55, l⟩
  · exfalso
    simp only [List.length_cons, List.length_nil] at hlen
    omega
  rcases l with _ | ⟨c56, l⟩
  · exfalso
    simp only [List.length_cons, List.length_nil] at hlen
    omega
  rcases l with _ | ⟨c57, l⟩
  · exfalso
    simp only [List.length_cons, List.length_nil] at hlen
    omega
  rcases l with _ | ⟨c58, l⟩
  · exfalso
    simp only [List.length_cons, List.length_nil] at hlen
    omega
  rcases l with _ | ⟨c59, l⟩
  · exfalso
    simp only [List.length_cons, List.length_nil] at hlen
    omega
  rcases l with _ | ⟨c60, l⟩
  · exfalso
    simp only [List.length_cons, List.length_nil] at hlen
    omega
  rcases l with _ | ⟨c61, l⟩
  · exfalso
    simp only [List.length_cons, List.length_nil] at hlen
    omega
  rcases l with _ | ⟨c62, l⟩
  · exfalso
    simp only [List.length_cons, List.length_nil] at hlen
    omega
  rcases l with _ | ⟨c63, l⟩
  · exfalso
    simp only [List.length_cons, List.length_nil] at hlen
    omega
  have hnil : l = [] := by
    cases l with
    | nil => rfl
    | cons a t =>
      exfalso
      simp only [List.length_cons] at hlen
      omega
  subst hnil
  refine ⟨Sha256.hexDigit ((hexVal c16 &&& 3) ||| 8), ?_, ?_⟩
  · have hc := hhex c16 (by simp)
    simp only [lowerHexDigits, List.mem_cons, List.not_mem_nil, or_false] at hc
    rcases hc with rfl | rfl | rfl | rfl | rfl | rfl | rfl | rfl | rfl | rfl |
      rfl | rfl | rfl | rfl | rfl | rfl <;> decide
  · rfl

/-- Closed instance of `sha256ToUuid_shape` at the SHA-256 of `"abc"`. -/
theorem sha256ToUuid_shape_witness :
    ∃ vc ∈ (['8', '9', 'a', 'b'] : List Char),
      (sha256ToUuid "ba7816bf8f01cfea414140de5dae2223b00361a396177a9cb410ff61f20015ad").toList =
        "ba7816bf8f01cfea414140de5dae2223b00361a396177a9cb410ff61f20015ad".toList.take 8 ++ '-' ::
        ("ba7816bf8f01cfea414140de5dae2223b00361a396177a9cb410ff61f20015ad".toList.drop 8).take 4 ++ '-' ::
        '5' :: ("ba7816bf8f01cfea414140de5dae2223b00361a396177a9cb410ff61f20015ad".toList.drop 13).take 3 ++ '-' ::
        vc :: ("ba7816bf8f01cfea414140de5dae2223b00361a396177a9cb410ff61f20015ad".toList.drop 17).take 3 ++ '-' ::
        ("ba7816bf8f01cfea414140de5dae2223b00361a396177a9cb410ff61f20015ad".toList.drop 20).take 12 :=
  sha256ToUuid_shape "ba7816bf8f01cfea414140de5dae2223b00361a396177a9cb410ff61f20015ad"
    (by decide) (by decide)

/-! ## Retriever search path (`vector-store.ts` `search`, `retriever.ts`) -/

/-- One scored point returned by the Qdrant client's `search`. -/
structure QdrantScoredPoint where
  id : String
  score : Int
  payload : VectorPayload
deriving Repr, DecidableEq

/-- A result after `VectorStore.search` maps the raw points. -/
structure VectorSearchResult where
  id : String
  score : Int
  payload : VectorPayload
deriving Repr, DecidableEq

/-- `VectorStore.search`: query the client and map each point to
`{id, score, payload}`. The body has no `try`/`catch`, so a client failure
(e.g. the collection does not exist) propagates to the caller. -/
def VectorStore.search {V : Type}
    (clientSearch : V → Nat → Except String (List QdrantScoredPoint))
    (queryVector : V) (topK : Nat) :
    Except String (List VectorSearchResult) := do
  let results ← clientSearch queryVector topK
  return results.map (fun r => ⟨r.id, r.score, r.payload⟩)

/-- A search result surfaced by the retriever. -/
structure SearchResult where
  filePath : String
  startLine : Nat
  endLine : Nat
  score : Int
  content : String
  nodeType : String
  symbolName : Option String
deriving Repr, DecidableEq

/-- `Retriever.enrichResults` on one hit: re-read the current file and slice
lines `max(0, startLine-1)` to `min(lines.length, endLine)`; if the file is
gone, substitute the `[File not found: ...]` placeholder. -/
def enrichResult (resolvePath : String → String)
    (readFile : String → Option String) (vr : VectorSearchResult) :
    SearchResult :=
  let content :=
    match readFile (resolvePath vr.payload.filePath) with
    | some fileContent =>
      let lines := jsSplit '\n' fileContent
      let s := vr.payload.startLine - 1
      let e := min lines.length vr.payload.endLine
      String.intercalate "\n" ((lines.drop s).take (e - s))
    | none => "[File not found: " ++ vr.payload.filePath ++ "]"
  ⟨vr.payload.filePath, vr.payload.startLine, vr.payload.endLine, vr.score,
   content, vr.payload.nodeType, vr.payload.symbolName⟩

/-- `Retriever.search`: embed the query, search the vector store, enrich the
hits from disk. There is no `try`/`catch` on this path either. -/
def Retriever.search {V : Type} (embed : String → V)
    (clientSearch : V → Nat → Except String (List QdrantScoredPoint))
    (resolvePath : String → String) (readFile : String → Option String)
    (query : String) (topK : Nat) : Except String (List SearchResult) := do
  let queryVector := embed query
  let vectorResults ← VectorStore.search clientSearch queryVector topK
  return vectorResults.map (enrichResult resolvePath readFile)

/-- C6 counterexample: with a client whose `search` fails because the
collection does not exist, `Retriever.search` surfaces that error — it does
not return an empty result list. -/
theorem retriever_missing_collection_counterexample :
    Retriever.search (V := Unit) (fun _ => ())
        (fun _ _ => Except.error "Collection `code_chunks` does not exist")
        (fun p => p) (fun _ => none) "query" 10 =
      Except.error "Collection `code_chunks` does not exist" ∧
    Retriever.search (V := Unit) (fun _ => ())
        (fun _ _ => Except.error "Collection `code_chunks` does not exist")
        (fun p => p) (fun _ => none) "query" 10 ≠
      Except.ok [] := by
  constructor
  · rfl
  · exact fun h => Except.noConfusion h

/-- C6 (amended): any client-side search failure propagates unchanged
through `VectorStore.search` and `Retriever.search`; the retriever never
converts it into an empty result list. -/
theorem retriever_search_propagates_error {V : Type} (embed : String → V)
    (clientSearch : V → Nat → Except String (List QdrantScoredPoint))
    (resolvePath : String → String) (readFile : String → Option String)
    (query : String) (topK : Nat) (err : String)
    (hfail : clientSearch (embed query) topK = Except.error err) :
    Retriever.search embed clientSearch resolvePath readFile query topK =
      Except.error err := by
  simp [Retriever.search, VectorStore.search, hfail]

/-- Closed instance of `retriever_search_propagates_error`. -/
theorem retriever_search_propagates_error_witness :
    Retriever.search (V := Unit) (fun _ => ())
        (fun _ _ => Except.error "not found") (fun p => p)
        (fun _ => some "line1\nline2") "q" 5 =
      Except.error "not found" :=
  retriever_search_propagates_error (fun _ => ()) (fun _ _ => Except.error "not found")
    (fun p => p) (fun _ => some "line1\nline2") "q" 5 "not found" rfl

/-! ## Benchmark dataset loading (`DatasetLoader.load`) -/

/-- One parsed JSONL corpus row: `_id`, `text ?? ''`, and the raw `title`
field (`none` when absent). -/
structure RawCorpusRow where
  rid : String
  text : String
  title : Option String
deriving Repr, DecidableEq

/-- One parsed qrels row: query id, corpus id, `Number(score ?? 1)`. -/
structure QrelRow where
  qid : String
  cid : String
  score : Int
deriving Repr, DecidableEq

/-- One parsed queries row. -/
structure QueryRow where
  qid : String
  text : String
deriving Repr, DecidableEq

structure CorpusEntry where
  id : String
  text : String
  title : Option String
deriving Repr, DecidableEq

structure BenchmarkQuery where
  id : String
  text : String
deriving Repr, DecidableEq

/-- The qrels pass: build the nested map `query_id ↦ (corpus_id ↦ score)`
and collect the ids with strictly positive score into `relevantCorpusIds`. -/
def buildQrels (rows : List QrelRow) :
    List (String × List (String × Int)) × List String :=
  rows.foldl
    (fun acc row =>
      let inner := (mapGet acc.1 row.qid).getD []
      (mapSet acc.1 row.qid (mapSet inner row.cid row.score),
       if 0 < row.score then setAdd acc.2 row.cid else acc.2))
    ([], [])

/-- `{id, text, title: row['title'] ? String(row['title']) : undefined}`. -/
def mkCorpusEntry (row : RawCorpusRow) : CorpusEntry :=
  ⟨row.rid, row.text, if truthy row.title then some (row.title.getD "") else none⟩

/-- The distractor loop: walk the remaining corpus rows, stopping as soon as
the map reaches `m` entries, and add each unseen id. -/
def fillDistractors (m : Nat) :
    List RawCorpusRow → List (String × CorpusEntry) → List (String × CorpusEntry)
  | [], cm => cm
  | row :: rest, cm =>
    if m ≤ cm.length then cm
    else if (mapGet cm row.rid).isSome then fillDistractors m rest cm
    else fillDistractors m rest (mapSet cm row.rid (mkCorpusEntry row))

/-- Corpus construction: when `maxCorpus` is a truthy number below the raw
corpus size, keep all qrels-relevant documents first and fill up with
distractors; otherwise map the whole raw corpus. -/
def dlCorpus (corpusRaw : List RawCorpusRow) (relevantIds : List String)
    (maxCorpus : Option Nat) : List CorpusEntry :=
  match maxCorpus with
  | some m =>
    if m ≠ 0 ∧ m < corpusRaw.length then
      let cm := corpusRaw.foldl
        (fun cm row =>
          if relevantIds.contains row.rid then
            mapSet cm row.rid (mkCorpusEntry row)
          else cm) []
      (fillDistractors m corpusRaw cm).map (fun kv => kv.2)
    else corpusRaw.map mkCorpusEntry
  | none => corpusRaw.map mkCorpusEntry

/-- The query filter predicate: keep a query iff it has a qrels entry and
some key of that entry (any score) is an id of the loaded corpus. -/
def queryPred (qrels : List (String × List (String × Int)))
    (corpusIds : List String) (q : BenchmarkQuery) : Bool :=
  match mapGet qrels q.id with
  | none => false
  | some rels => rels.any (fun cs => corpusIds.contains cs.1)

/-- `maxQueries` step: slice after filtering when it is a truthy number
below the filtered count. -/
def applyMaxQueries (maxQueries : Option Nat)
    (filtered : List BenchmarkQuery) : List BenchmarkQuery :=
  match maxQueries with
  | some mq => if mq ≠ 0 ∧ mq < filtered.length then filtered.take mq else filtered
  | none => filtered

/-- `DatasetLoader.load` (pure core): returns
`(finalQueries, corpus, qrels)`. -/
def DatasetLoader.load (corpusRaw : List RawCorpusRow)
    (qrelsRaw : List QrelRow) (queriesRaw : List QueryRow)
    (maxCorpus maxQueries : Option Nat) :
    List BenchmarkQuery × List CorpusEntry ×
      List (String × List (String × Int)) :=
  let qr := buildQrels qrelsRaw
  let corpus := dlCorpus corpusRaw qr.2 maxCorpus
  let queries := queriesRaw.map (fun r => (⟨r.qid, r.text⟩ : BenchmarkQuery))
  let corpusIds := corpus.map (fun c => c.id)
  let filteredQueries := queries.filter (queryPred qr.1 corpusIds)
  (applyMaxQueries maxQueries filteredQueries, corpus, qr.1)

theorem applyMaxQueries_pre (maxQueries : Option Nat)
    (l : List BenchmarkQuery) : applyMaxQueries maxQueries l <+: l := by
  cases maxQueries with
  | none => exact List.prefix_refl l
  | some mq =>
    simp only [applyMaxQueries]
    split
    · exact List.take_prefix mq l
    · exact List.prefix_refl l

theorem mem_applyMaxQueries {maxQueries : Option Nat}
    {l : List BenchmarkQuery} {q : BenchmarkQuery}
    (h : q ∈ applyMaxQueries maxQueries l) : q ∈ l :=
  (applyMaxQueries_pre maxQueries l).subset h

/-- C7 counterexample: corpus `[c1, c2]` capped at `maxCorpus = 1`, a single
qrel `(q1, c1)` with score `0`. The loaded corpus is the distractor `c1`
alone and `q1` survives the filter, yet no entry of `q1`'s qrels is both
positive and present in the corpus — the filter checks qrels membership, not
positive relevance. -/
theorem datasetLoader_capped_positive_counterexample :
    (DatasetLoader.load [⟨"c1", "t1", none⟩, ⟨"c2", "t2", none⟩]
        [⟨"q1", "c1", 0⟩] [⟨"q1", "find"⟩] (some 1) none).1 =
      [⟨"q1", "find"⟩] ∧
    (DatasetLoader.load [⟨"c1", "t1", none⟩, ⟨"c2", "t2", none⟩]
        [⟨"q1", "c1", 0⟩] [⟨"q1", "find"⟩] (some 1) none).2.1 =
      [⟨"c1", "t1", none⟩] ∧
    ¬ ∃ cs ∈ (mapGet (DatasetLoader.load [⟨"c1", "t1", none⟩, ⟨"c2", "t2", none⟩]
        [⟨"q1", "c1", 0⟩] [⟨"q1", "find"⟩] (some 1) none).2.2 "q1").getD [],
      0 < cs.2 ∧
        ((DatasetLoader.load [⟨"c1", "t1", none⟩, ⟨"c2", "t2", none⟩]
            [⟨"q1", "c1", 0⟩] [⟨"q1", "find"⟩] (some 1) none).2.1.map
          (fun c => c.id)).contains cs.1 := by
  decide

/-- C7 (amended): every query surviving the loader's filter has at least one
qrels entry (of any score) whose corpus id is present in the loaded corpus,
and `maxQueries` only truncates the already-filtered list: the final queries
are a prefix of the queries loaded with `maxQueries = none`. -/
theorem datasetLoader_filter_qrel_overlap (corpusRaw : List RawCorpusRow)
    (qrelsRaw : List QrelRow) (queriesRaw : List QueryRow)
    (maxCorpus maxQueries : Option Nat) :
    (∀ q ∈ (DatasetLoader.load corpusRaw qrelsRaw queriesRaw maxCorpus maxQueries).1,
      ∃ cs ∈ (mapGet (DatasetLoader.load corpusRaw qrelsRaw queriesRaw
          maxCorpus maxQueries).2.2 q.id).getD [],
        ((DatasetLoader.load corpusRaw qrelsRaw queriesRaw maxCorpus
            maxQueries).2.1.map (fun c => c.id)).contains cs.1) ∧
    (DatasetLoader.load corpusRaw qrelsRaw queriesRaw maxCorpus maxQueries).1 <+:
      (DatasetLoader.load corpusRaw qrelsRaw queriesRaw maxCorpus none).1 := by
  constructor
  · intro q hq
    simp only [DatasetLoader.load] at hq ⊢
    have hq' := mem_applyMaxQueries hq
    have hp := List.of_mem_filter hq'
    revert hp
    unfold queryPred
    cases hmg : mapGet (buildQrels qrelsRaw).1 q.id with
    | none => intro hp; exact absurd hp (by simp)
    | some rels =>
      intro hp
      exact List.any_eq_true.mp hp
  · simp only [DatasetLoader.load]
    exact applyMaxQueries_pre maxQueries _

/-- Closed instance of `datasetLoader_filter_qrel_overlap`. -/
theorem datasetLoader_filter_qrel_overlap_witness :
    (∀ q ∈ (DatasetLoader.load [⟨"c1", "t1", none⟩, ⟨"c2", "t2", none⟩]
        [⟨"q1", "c1", 1⟩] [⟨"q1", "find"⟩] (some 1) (some 5)).1,
      ∃ cs ∈ (mapGet (DatasetLoader.load [⟨"c1", "t1", none⟩, ⟨"c2", "t2", none⟩]
          [⟨"q1", "c1", 1⟩] [⟨"q1", "find"⟩] (some 1) (some 5)).2.2 q.id).getD [],
        ((DatasetLoader.load [⟨"c1", "t1", none⟩, ⟨"c2", "t2", none⟩]
            [⟨"q1", "c1", 1⟩] [⟨"q1", "find"⟩] (some 1) (some 5)).2.1.map
          (fun c => c.id)).contains cs.1) ∧
    (DatasetLoader.load [⟨"c1", "t1", none⟩, ⟨"c2", "t2", none⟩]
        [⟨"q1", "c1", 1⟩] [⟨"q1", "find"⟩] (some 1) (some 5)).1 <+:
      (DatasetLoader.load [⟨"c1", "t1", none⟩, ⟨"c2", "t2", none⟩]
        [⟨"q1", "c1", 1⟩] [⟨"q1", "find"⟩] (some 1) none).1 :=
  datasetLoader_filter_qrel_overlap [⟨"c1", "t1", none⟩, ⟨"c2", "t2", none⟩]
    [⟨"q1", "c1", 1⟩] [⟨"q1", "find"⟩] (some 1) (some 5)

/-- C4 counterexample: a container whose recorded children share a boundary
line — `(1,3)` followed by `(3,7)`, as `extractContainerChildren` records
when a trailing comment sits on the previous method's closing line — makes
`splitContainer` absorb the small gap into `(0,3)`, clamp the next start to
`min lastEnd child.startLine = 3`, and merge the small trailer, emitting
`(0,3)` and `(3,8)`: the emitted segments overlap at line 3, so they are not
pairwise disjoint. -/
theorem splitContainer_boundary_overlap_counterexample :
    (splitContainer (List.replicate 9 "x") 100
        ⟨0, 8, "class_declaration", some "C",
         [⟨1, 3, "method_definition", some "m1", [], []⟩,
          ⟨3, 7, "method_definition", some "m2", [], []⟩], []⟩ =
      [⟨0, 3, "method_definition", some "C.m1", [], []⟩,
       ⟨3, 8, "method_definition", some "C.m2", [], []⟩]) ∧
    ¬ List.Pairwise segBefore
      (splitContainer (List.replicate 9 "x") 100
        ⟨0, 8, "class_declaration", some "C",
         [⟨1, 3, "method_definition", some "m1", [], []⟩,
          ⟨3, 7, "method_definition", some "m2", [], []⟩], []⟩) :=
  ⟨rfl, by decide⟩
